import Mathlib

/-!
Verification of the gtfstidy repository's route duplicate remover
(processors/routeduplicateremover.go), id minimizer (IDMinimizer) and the
command line driver (main), as a shallow embedding in Lean.

Go maps are modelled as lists in iteration order whose keys are the entities'
id fields; Go pointers to entities held in a map are modelled by the entity's
unique id (routes) or by its position in an entity pool (id minimizer).
A Go runtime panic is modelled by Option: none is a panic.
-/

namespace RD

/-- A fare rule (gtfs.FareAttributeRule): origin, destination and contains zone
ids, and a reference to a route. Routes in the feed map have unique ids, so the
id string stands for the Go instance pointer. -/
structure FareRule where
  originId : String
  destinationId : String
  containsId : String
  route : String
deriving DecidableEq, Repr

/-- A fare attribute (gtfs.FareAttribute): its id (the map key) and its rules. -/
structure FareAttribute where
  id : String
  rules : List FareRule
deriving DecidableEq, Repr

/-- A route (gtfs.Route): the id (map key) and the descriptive fields compared
by routeEquals. The agency pointer is modelled by a number identifying the
agency instance. -/
structure Route where
  id : String
  agency : Nat
  shortName : String
  longName : String
  desc : String
  rtype : Nat
  url : Option String
  color : String
  textColor : String
deriving DecidableEq, Repr

/-- A trip (gtfs.Trip): its id and the route it references (by route id,
standing for the Go pointer). -/
structure Trip where
  id : String
  route : String
deriving DecidableEq, Repr

/-- The part of gtfsparser.Feed that RouteDuplicateRemover reads and writes.
Each Go map is a list in iteration order; the trip list doubles as the trip
pool, a trip's position standing for its pointer. -/
structure Feed where
  routes : List Route
  trips : List Trip
  fareAttributes : List FareAttribute
deriving DecidableEq, Repr

/-- routeEquals of routeduplicateremover.go: equality of all descriptive
fields. The Go url comparison ((both non-nil and equal strings) or pointer
equality) is equality of the url values, modelled as Option String equality. -/
def routeEquals (a b : Route) : Bool :=
  a.agency == b.agency && a.shortName == b.shortName && a.longName == b.longName &&
  a.desc == b.desc && a.rtype == b.rtype && a.url == b.url && a.color == b.color &&
  a.textColor == b.textColor

/-- The (origin, destination, contains) triple on which fareRulesEqual matches
rules. -/
def ruleKey (r : FareRule) : String × String × String :=
  (r.originId, r.destinationId, r.containsId)

/-- The inner search of fareRulesEqual: find the first rule in the list whose
key matches and remove it; the Go loop breaks after the first hit. none means
no rule matched. -/
def findRemoveKey (k : String × String × String) : List FareRule → Option (List FareRule)
  | [] => none
  | r :: rest =>
    if ruleKey r = k then some rest
    else (findRemoveKey k rest).map (r :: ·)

/-- One iteration of fareRulesEqual's loop over attr.Rules: a rule of route a
cancels a pending rule of b with the same key or becomes pending for a, and
symmetrically. The two branches are Go's two consecutive if statements. -/
def fareStep (aId bId : String) (s : List FareRule × List FareRule) (r : FareRule) :
    List FareRule × List FareRule :=
  let s1 :=
    if r.route == aId then
      match findRemoveKey (ruleKey r) s.2 with
      | some rb => (s.1, rb)
      | none => (s.1 ++ [r], s.2)
    else s
  if r.route == bId then
    match findRemoveKey (ruleKey r) s1.1 with
    | some ra => (ra, s1.2)
    | none => (s1.1, s1.2 ++ [r])
  else s1

/-- fareRulesEqual of routeduplicateremover.go: walk attr.Rules cancelling
matching pairs; equal iff nothing is left pending on either side. -/
def fareRulesEqual (attr : FareAttribute) (a b : Route) : Bool :=
  let s := attr.rules.foldl (fareStep a.id b.id) ([], [])
  s.1.isEmpty && s.2.isEmpty

/-- checkFareEquality of routeduplicateremover.go: every fare attribute with a
rule touching a or b must satisfy fareRulesEqual (the Go inner loop runs
fareRulesEqual at the first touching rule and breaks). -/
def checkFareEquality (feed : Feed) (a b : Route) : Bool :=
  feed.fareAttributes.all fun fa =>
    !(fa.rules.any fun fr => fr.route == a.id || fr.route == b.id) || fareRulesEqual fa a b

/-- The multiset of keys of a list of fare rules. -/
def ruleKeys (l : List FareRule) : Multiset (String × String × String) :=
  (l.map ruleKey : List (String × String × String))

/-- The multiset of keys of the rules in a list that reference the route with
id rid. -/
def routeKeys (rid : String) (l : List FareRule) : Multiset (String × String × String) :=
  ruleKeys (l.filter fun r => r.route == rid)

/-- The multiset of keys of the rules of a fare attribute that reference the
route with id rid. fareRulesEqual is proved below to compare exactly these
multisets for the two routes. -/
def msKeys (rid : String) (attr : FareAttribute) : Multiset (String × String × String) :=
  routeKeys rid attr.rules

/-- Equivalence of two routes over a feed: field-identical and, for every
fare attribute, the same multiset of rule keys. This is proved below to be
what routeEquals plus checkFareEquality decide for routes with distinct ids,
and it is symmetric and transitive. -/
def equivR (feed : Feed) (a b : Route) : Prop :=
  routeEquals a b = true ∧ ∀ fa ∈ feed.fareAttributes, msKeys a.id fa = msKeys b.id fa

/-- Ascending indices of the elements satisfying p: the toDel list that
combineRoutes collects for one fare attribute. -/
def idxsWhere (p : α → Bool) (l : List α) : List Nat :=
  (List.range l.length).filter fun j =>
    match l[j]? with
    | some x => p x
    | none => false

/-- One Go deletion step (fa.Rules[j] = fa.Rules[len-1]; truncate by one):
swap the last element into position j and drop the last slot. An out-of-range
j is an index-out-of-range panic, modelled as none. -/
def swapDeleteStep (l : List FareRule) (j : Nat) : Option (List FareRule) :=
  match l.getLast? with
  | none => none
  | some last => if j < l.length then some ((l.set j last).take (l.length - 1)) else none

/-- combineRoutes' removal loop over the collected toDel indices. -/
def swapDelete (l : List FareRule) (toDel : List Nat) : Option (List FareRule) :=
  toDel.foldlM swapDeleteStep l

/-- combineRoutes' fare pass for one superseded route rid: in every fare
attribute delete the rules referencing rid (swap-delete, may panic), and drop
the attribute itself exactly when its rule list was non-empty before this
removal and is empty after it. -/
def processFareAttrs (rid : String) : List FareAttribute → Option (List FareAttribute)
  | [] => some []
  | fa :: rest => do
    let emptyBef := fa.rules.isEmpty
    let rules' ← swapDelete fa.rules (idxsWhere (fun fr => fr.route == rid) fa.rules)
    let rest' ← processFareAttrs rid rest
    if rules'.isEmpty && !emptyBef then pure rest'
    else pure ({ fa with rules := rules' } :: rest')

/-- combineRoutes' trip pass for one superseded route rid: for every trip pool
index in the precomputed trips map entry of rid, point the trip at the
reference route if it still references rid. -/
def repointTrips (trips : List Trip) (idxs : List Nat) (rid refId : String) : List Trip :=
  idxs.foldl (fun ts i =>
    match ts.get? i with
    | some t => if t.route == rid then ts.set i { t with route := refId } else ts
    | none => ts) trips

/-- combineRoutes' reference heuristic: the first route of the group whose id
length is minimal (ref starts at routes[0] and is replaced on strictly shorter
ids). -/
def pickRef (g0 : Route) (grp : List Route) : Route :=
  grp.foldl (fun a r => if r.id.length < a.id.length then r else a) g0

/-- The body of combineRoutes' loop for one group member r, skipped when r is
the reference: repoint r's trips, delete r's fare rules, delete r from the
routes map. -/
def combineMember (tIdx : String → List Nat) (ref : Route) (feed : Feed) (r : Route) :
    Option Feed :=
  if r = ref then some feed
  else do
    let trips' := repointTrips feed.trips (tIdx r.id) r.id ref.id
    let attrs' ← processFareAttrs r.id feed.fareAttributes
    pure { routes := feed.routes.filter (fun x => x.id != r.id),
           trips := trips', fareAttributes := attrs' }

/-- combineRoutes of routeduplicateremover.go. -/
def combineRoutes (feed : Feed) (tIdx : String → List Nat) (grp : List Route) :
    Option Feed :=
  match grp with
  | [] => some feed
  | g0 :: _ => grp.foldlM (combineMember tIdx (pickRef g0 grp)) feed

/-- Fuel-driven splitting of a list into consecutive chunks of size k. -/
def chunksOfAux : Nat → Nat → List α → List (List α)
  | _, _, [] => []
  | 0, _, l => [l]
  | fuel + 1, k, x :: xs => ((x :: xs).take k) :: chunksOfAux fuel k ((x :: xs).drop k)

/-- Run's chunk fill loop: the route snapshot split into numchunks consecutive
slices of chunksize; concatenating the chunks yields the snapshot again. -/
def chunksOf (k : Nat) (l : List α) : List (List α) :=
  chunksOfAux l.length k l

/-- getEquivalentRoutes of routeduplicateremover.go: each worker filters its
chunk for routes field-equal and fare-equal to route; the per-chunk result
slices are concatenated in chunk order. -/
def getEquivalentRoutes (feed : Feed) (route : Route) (chunks : List (List Route)) :
    List Route :=
  (chunks.map fun c =>
    c.filter fun r => r != route && routeEquals r route && checkFareEquality feed route r).flatten

/-- The trips map Run precomputes before any merge: for a route id, the trip
pool indices of the trips referencing it. -/
def tripIndicesFor (trips : List Trip) (rid : String) : List Nat :=
  idxsWhere (fun t => t.route == rid) trips

/-- Run's main loop over the route collection: skip processed routes, search
for equivalent routes, combine a non-empty group and mark it processed. -/
def runLoop (chunks : List (List Route)) (tIdx : String → List Nat) :
    List Route → Feed → List String → Option Feed
  | [], feed, _ => some feed
  | r :: rest, feed, proced =>
    if r.id ∈ proced then runLoop chunks tIdx rest feed proced
    else
      let eq := getEquivalentRoutes feed r chunks
      if eq.isEmpty then runLoop chunks tIdx rest feed proced
      else do
        let feed' ← combineRoutes feed tIdx (eq ++ [r])
        runLoop chunks tIdx rest feed' (proced ++ (eq ++ [r]).map Route.id)

/-- RouteDuplicateRemover.Run with numchunks = MaxParallelism(). The iteration
over the feed.Routes map is modelled as iteration over the snapshot taken at
entry; every route deleted while the loop runs is marked processed, and the
theorem for runSkip below shows that skipping deleted entries (as Go's map
iteration may) gives the same result. -/
def run (numchunks : Nat) (feed : Feed) : Option Feed :=
  let snapshot := feed.routes
  let chunksize := (snapshot.length + numchunks - 1) / numchunks
  let chunks := chunksOf chunksize snapshot
  runLoop chunks (tripIndicesFor feed.trips) snapshot feed []

/-- Run's loop under Go's weaker map-iteration guarantee: an entry deleted
from feed.Routes before being reached may not be yielded at all. -/
def runLoopSkip (chunks : List (List Route)) (tIdx : String → List Nat) :
    List Route → Feed → List String → Option Feed
  | [], feed, _ => some feed
  | r :: rest, feed, proced =>
    if r ∉ feed.routes then runLoopSkip chunks tIdx rest feed proced
    else if r.id ∈ proced then runLoopSkip chunks tIdx rest feed proced
    else
      let eq := getEquivalentRoutes feed r chunks
      if eq.isEmpty then runLoopSkip chunks tIdx rest feed proced
      else do
        let feed' ← combineRoutes feed tIdx (eq ++ [r])
        runLoopSkip chunks tIdx rest feed' (proced ++ (eq ++ [r]).map Route.id)

/-- Run in which the iteration never yields an entry already deleted from
feed.Routes (the other extreme of Go's permitted map-iteration behaviours). -/
def runSkip (numchunks : Nat) (feed : Feed) : Option Feed :=
  let snapshot := feed.routes
  let chunksize := (snapshot.length + numchunks - 1) / numchunks
  let chunks := chunksOf chunksize snapshot
  runLoopSkip chunks (tripIndicesFor feed.trips) snapshot feed []

/-- A route with fixed descriptive fields, differing only in its id: any two
such routes satisfy routeEquals. -/
def mkRoute (rid : String) : Route :=
  { id := rid, agency := 0, shortName := "10", longName := "Ten", desc := "",
    rtype := 3, url := none, color := "FFFFFF", textColor := "000000" }

/-- The spec's concrete scenario: routes R1 and R22 identical in all
descriptive fields, no fare rules, trips T1 on R1 and T2 on R22. -/
def feedC2 : Feed :=
  { routes := [mkRoute "R1", mkRoute "R22"],
    trips := [{ id := "T1", route := "R1" }, { id := "T2", route := "R22" }],
    fareAttributes := [] }

/-- Three field-identical routes s, rr, rrr; s and rr have matching fare rules
in attribute F, rrr has none. Merging rr into s deletes rr's rule; afterwards
rr (already removed) is judged equivalent to rrr and, having the shorter id,
is picked as the reference of the second merge. -/
def feedC3 : Feed :=
  { routes := [mkRoute "s", mkRoute "rr", mkRoute "rrr"],
    trips := [{ id := "Ts", route := "s" }, { id := "Trr", route := "rr" },
              { id := "Trrr", route := "rrr" }],
    fareAttributes :=
      [{ id := "F",
         rules := [{ originId := "k", destinationId := "", containsId := "", route := "s" },
                   { originId := "k", destinationId := "", containsId := "", route := "rr" }] }] }

/-- The feed Run produces from feedC2: one route R1, both trips on it. -/
def feedC2run : Feed :=
  { routes := [mkRoute "R1"],
    trips := [{ id := "T1", route := "R1" }, { id := "T2", route := "R1" }],
    fareAttributes := [] }

/-- The feed Run produces from feedC3 (model iteration order s, rr, rrr): the
route rr was merged away, yet trip Trrr ends up referencing it. -/
def feedC3run : Feed :=
  { routes := [mkRoute "s"],
    trips := [{ id := "Ts", route := "s" }, { id := "Trr", route := "s" },
              { id := "Trrr", route := "rr" }],
    fareAttributes :=
      [{ id := "F",
         rules := [{ originId := "k", destinationId := "", containsId := "", route := "s" }] }] }

/-- A fare attribute whose rules pair off one-to-one between routes R1 and
R22, the R22 rules sitting at the two trailing positions. -/
def attrC5 : FareAttribute :=
  { id := "F",
    rules := [{ originId := "k1", destinationId := "", containsId := "", route := "R1" },
              { originId := "k2", destinationId := "", containsId := "", route := "R1" },
              { originId := "k1", destinationId := "", containsId := "", route := "R22" },
              { originId := "k2", destinationId := "", containsId := "", route := "R22" }] }

/-- Two field-identical routes whose fare rules pair off one-to-one inside one
fare attribute, the superseded route's two rules sitting at the trailing
positions: the swap-delete in combineRoutes runs out of range there. -/
def feedC5 : Feed :=
  { routes := [mkRoute "R1", mkRoute "R22"],
    trips := [],
    fareAttributes := [attrC5] }

end RD

namespace IM

/-- gtfs.Agency. -/
structure Agency where
  id : String
  name : String
  url : String
  timezone : String
deriving DecidableEq, Repr

/-- gtfs.Route; the agency pointer is an index into the agency pool. -/
structure Route where
  id : String
  agency : Nat
  shortName : String
  longName : String
  desc : String
  rtype : Nat
  url : String
  color : String
  textColor : String
deriving DecidableEq, Repr

/-- gtfs.Service: weekly active-day pattern, validity range, exception dates
tagged added/removed. -/
structure Service where
  id : String
  weekdays : List Bool
  rangeStart : Nat
  rangeEnd : Nat
  exceptions : List (Nat × Bool)
deriving DecidableEq, Repr

/-- gtfs.Shape: ordered points (lat, lon, sequence, optional measured
distance); coordinates abstracted to integers, never inspected here. -/
structure Shape where
  id : String
  points : List (Int × Int × Nat × Option Int)
deriving DecidableEq, Repr

/-- gtfs.Stop. -/
structure Stop where
  id : String
  lat : Int
  lon : Int
  name : String
deriving DecidableEq, Repr

/-- A stop time of a trip: stop pool index (the Go pointer), sequence number,
arrival and departure. -/
structure StopTime where
  stop : Nat
  seq : Nat
  arrival : Nat
  departure : Nat
deriving DecidableEq, Repr

/-- gtfs.Trip with its cross-entity references as pool indices (Go pointers). -/
structure Trip where
  id : String
  route : Nat
  service : Nat
  shape : Option Nat
  stopTimes : List StopTime
deriving DecidableEq, Repr

/-- gtfs.FareAttributeRule with the route reference as a pool index. -/
structure FareRule where
  originId : String
  destinationId : String
  containsId : String
  route : Nat
deriving DecidableEq, Repr

/-- gtfs.FareAttribute. -/
structure FareAttribute where
  id : String
  price : String
  rules : List FareRule
deriving DecidableEq, Repr

/-- The feed as the id minimizer sees it: one pool per entity collection in
map iteration order; the id-to-entity map of a collection is the pool keyed by
the id field, and a pool position stands for the instance pointer. -/
structure Feed where
  agencies : List Agency
  routes : List Route
  trips : List Trip
  stops : List Stop
  services : List Service
  shapes : List Shape
  fareAttributes : List FareAttribute
deriving DecidableEq, Repr

/-- strconv.FormatInt digit characters: 0-9 then a-z. -/
def digitChar (d : Nat) : Char :=
  "0123456789abcdefghijklmnopqrstuvwxyz".toList.getD d ' '

/-- Fuel-driven base-b digit expansion, least significant digit first;
evaluates by structural recursion and is proved equal to Nat.digits below. -/
def toDigitsAux (b : Nat) : Nat → Nat → List Nat
  | 0, _ => []
  | _ + 1, 0 => []
  | fuel + 1, n + 1 => (n + 1) % b :: toDigitsAux b fuel ((n + 1) / b)

/-- The base-b digits of n, least significant first. -/
def toDigitsLE (b n : Nat) : List Nat :=
  toDigitsAux b n n

/-- strconv.FormatInt for a positive counter value: the base-b digits, most
significant first. -/
def formatBase (b n : Nat) : String :=
  String.mk (((toDigitsLE b n).map digitChar).reverse)

/-- The shared shape of the six minimize functions: walk the pool with idCount
starting at k, overwrite each entity's id with the formatted counter. The
rebuilt newMap is the renumbered pool keyed by the new ids. -/
def renumberFrom (b : Nat) (setId : α → String → α) : Nat → List α → List α
  | _, [] => []
  | k, x :: xs => setId x (formatBase b k) :: renumberFrom b setId (k + 1) xs

/-- IDMinimizer.minimizeTripIds. -/
def minimizeTripIds (b : Nat) (feed : Feed) : Feed :=
  { feed with trips := renumberFrom b (fun t s => { t with id := s }) 1 feed.trips }

/-- IDMinimizer.minimizeShapeIds. -/
def minimizeShapeIds (b : Nat) (feed : Feed) : Feed :=
  { feed with shapes := renumberFrom b (fun x s => { x with id := s }) 1 feed.shapes }

/-- IDMinimizer.minimizeRouteIds. -/
def minimizeRouteIds (b : Nat) (feed : Feed) : Feed :=
  { feed with routes := renumberFrom b (fun x s => { x with id := s }) 1 feed.routes }

/-- IDMinimizer.minimizeServiceIds. -/
def minimizeServiceIds (b : Nat) (feed : Feed) : Feed :=
  { feed with services := renumberFrom b (fun x s => { x with id := s }) 1 feed.services }

/-- IDMinimizer.minimizeStopIds. -/
def minimizeStopIds (b : Nat) (feed : Feed) : Feed :=
  { feed with stops := renumberFrom b (fun x s => { x with id := s }) 1 feed.stops }

/-- IDMinimizer.minimizeAgencyIds. -/
def minimizeAgencyIds (b : Nat) (feed : Feed) : Feed :=
  { feed with agencies := renumberFrom b (fun x s => { x with id := s }) 1 feed.agencies }

/-- IDMinimizer.Run with Base = b: six goroutines renumber the six collections
trips, stops, routes, shapes, agencies, services; they touch disjoint fields,
so the join is their sequential composition. fareAttributes has no minimize
function in the source and is left untouched. -/
def run (b : Nat) (feed : Feed) : Feed :=
  minimizeServiceIds b (minimizeAgencyIds b (minimizeShapeIds b (minimizeRouteIds b
    (minimizeStopIds b (minimizeTripIds b feed)))))

/-- The identifiers the minimizer hands out over a collection of n entities:
the base-b representations of 1, 2, ..., n in assignment order. -/
def expectedIds (b n : Nat) : List String :=
  (List.range' 1 n).map (formatBase b)

/-- A collection whose identifier-to-entity mapping is intact: the ids (read
off by gid) are pairwise distinct, and looking an entity's id up in the
collection yields that entity. -/
def idsOk (gid : α → String) (l : List α) : Prop :=
  (l.map gid).Nodup ∧ ∀ t ∈ l, l.find? (fun x => gid x == gid t) = some t

/-- A small feed with long identifiers everywhere, among them a fare attribute
with id FARE_XYZ. -/
def feedIM : Feed :=
  { agencies := [{ id := "AGENCY_LONG", name := "A", url := "u", timezone := "tz" }],
    routes := [{ id := "ROUTE_LONG", agency := 0, shortName := "10", longName := "Ten",
                 desc := "", rtype := 3, url := "u", color := "FFFFFF", textColor := "000000" }],
    trips := [{ id := "TRIP_LONG", route := 0, service := 0, shape := none, stopTimes := [] }],
    stops := [{ id := "STOP_LONG", lat := 1, lon := 2, name := "S" }],
    services := [{ id := "SERVICE_LONG", weekdays := [true], rangeStart := 0, rangeEnd := 7,
                   exceptions := [] }],
    shapes := [{ id := "SHAPE_LONG", points := [] }],
    fareAttributes := [{ id := "FARE_XYZ", price := "1.00", rules := [] }] }

end IM

namespace CLI

/-- gtfsparser.ParseOptions as far as main sets them. -/
structure ParseOptions where
  useDefValueOnError : Bool
  dropErroneous : Bool
  dryRun : Bool
deriving DecidableEq, Repr

/-- main's option plumbing: the literal {UseDefValueOnError false,
DropErroneous false, DryRun onlyValidate}, then the two lenient toggles
overwritten with flag && !onlyValidate. -/
def mkParseOpts (onlyValidate useDefaultValuesOnError dropErroneousEntities : Bool) :
    ParseOptions :=
  let opts : ParseOptions :=
    { useDefValueOnError := false, dropErroneous := false, dryRun := onlyValidate }
  let opts := { opts with dropErroneous := dropErroneousEntities && !onlyValidate }
  { opts with useDefValueOnError := useDefaultValuesOnError && !onlyValidate }

/-- The command line flags and external outcomes main branches on: whether the
parser fails, whether some processor panics while the feed is transformed, and
whether the writer fails. -/
structure Args where
  help : Bool
  hasInputPath : Bool
  onlyValidate : Bool
  useDefaultValuesOnError : Bool
  dropErroneousEntities : Bool
  parseError : Option String
  panicInProcessing : Bool
  writeError : Option String
deriving DecidableEq, Repr

/-- Arguments without the help flag: input present or not, validation mode,
the two lenient flags, and the parse/panic/write outcomes. -/
def mkArgs (hasInput onlyValidate ud de : Bool) (pe : Option String) (pp : Bool)
    (w : Option String) : Args :=
  { help := false, hasInputPath := hasInput, onlyValidate := onlyValidate,
    useDefaultValuesOnError := ud, dropErroneousEntities := de,
    parseError := pe, panicInProcessing := pp, writeError := w }

/-- The observable outcome of a run of main: the process exit code and the
diagnostics printed to the error stream. -/
structure Outcome where
  exitCode : Nat
  stderr : List String
deriving DecidableEq, Repr

/-- main of the driver (src/unnamed/part_000): help prints usage and returns
(exit 0); a missing input path exits 1; a parse error exits 1; validation mode
then exits 0; a panic in a processor is recovered by the deferred handler,
which prints the diagnostic, after which main returns normally, so the process
exits 0; a write error exits 1; otherwise exit 0. -/
def mainRun (a : Args) : Outcome :=
  if a.help then { exitCode := 0, stderr := ["usage"] }
  else if !a.hasInputPath then
    { exitCode := 1, stderr := ["No GTFS location specified, see --help"] }
  else
    match a.parseError with
    | some e => { exitCode := 1, stderr := ["Error while parsing GTFS feed:", e] }
    | none =>
      if a.onlyValidate then { exitCode := 0, stderr := [] }
      else if a.panicInProcessing then { exitCode := 0, stderr := ["Error:"] }
      else
        match a.writeError with
        | some e => { exitCode := 1, stderr := ["Error while writing GTFS feed:", e] }
        | none => { exitCode := 0, stderr := [] }

end CLI

/-! ## Helper lemmas for the id minimizer -/

namespace IM

theorem toDigitsAux_eq_digits (b : Nat) (hb : 2 ≤ b) :
    ∀ fuel n, n ≤ fuel → toDigitsAux b fuel n = Nat.digits b n := by
  intro fuel
  induction fuel with
  | zero => intro n hn; interval_cases n; simp [toDigitsAux]
  | succ f ih =>
    intro n hn
    match n with
    | 0 => simp [toDigitsAux]
    | n + 1 =>
      rw [toDigitsAux, Nat.digits_def' (by omega : 1 < b) (Nat.succ_pos n)]
      congr 1
      apply ih
      have : (n + 1) / b ≤ (n + 1) / 2 := Nat.div_le_div_left hb (by omega)
      have h2 : (n + 1) / 2 ≤ n := by omega
      omega

theorem toDigitsLE_eq_digits (b : Nat) (hb : 2 ≤ b) (n : Nat) :
    toDigitsLE b n = Nat.digits b n :=
  toDigitsAux_eq_digits b hb n n (Nat.le_refl n)

theorem digitChar_inj : ∀ d1 < 36, ∀ d2 < 36, digitChar d1 = digitChar d2 → d1 = d2 := by
  decide

theorem map_digitChar_inj : ∀ l1 l2 : List Nat, (∀ x ∈ l1, x < 36) → (∀ x ∈ l2, x < 36) →
    l1.map digitChar = l2.map digitChar → l1 = l2 := by
  intro l1
  induction l1 with
  | nil => intro l2 _ _ h; cases l2 <;> simp_all
  | cons x xs ih =>
    intro l2 h1 h2 h
    cases l2 with
    | nil => simp_all
    | cons y ys =>
      simp only [List.map_cons, List.cons.injEq] at h
      have hx : x = y := digitChar_inj x (h1 x (by simp)) y (h2 y (by simp)) h.1
      have : xs = ys := ih ys (fun z hz => h1 z (by simp [hz])) (fun z hz => h2 z (by simp [hz])) h.2
      simp [hx, this]

theorem formatBase_inj (b : Nat) (hb2 : 2 ≤ b) (hb36 : b ≤ 36) :
    Function.Injective (formatBase b) := by
  intro m n h
  unfold formatBase at h
  rw [toDigitsLE_eq_digits b hb2, toDigitsLE_eq_digits b hb2] at h
  have h' : ((Nat.digits b m).map digitChar).reverse = ((Nat.digits b n).map digitChar).reverse := by
    have := congrArg String.data h
    simpa using this
  have h'' : (Nat.digits b m).map digitChar = (Nat.digits b n).map digitChar :=
    List.reverse_injective h'
  have hd : Nat.digits b m = Nat.digits b n :=
    map_digitChar_inj _ _
      (fun x hx => lt_of_lt_of_le (Nat.digits_lt_base hb2 hx) hb36)
      (fun x hx => lt_of_lt_of_le (Nat.digits_lt_base hb2 hx) hb36) h''
  have := congrArg (Nat.ofDigits b) hd
  rwa [Nat.ofDigits_digits, Nat.ofDigits_digits] at this

theorem renumberFrom_get? (b : Nat) (setId : α → String → α) :
    ∀ (l : List α) (k i : Nat),
      (renumberFrom b setId k l)[i]? = (l[i]?).map (fun x => setId x (formatBase b (k + i))) := by
  intro l
  induction l with
  | nil => intro k i; simp [renumberFrom]
  | cons x xs ih =>
    intro k i
    cases i with
    | zero => simp [renumberFrom]
    | succ j =>
      simp only [renumberFrom, List.getElem?_cons_succ]
      rw [ih (k + 1) j]
      have hk : k + 1 + j = k + (j + 1) := by omega
      rw [hk]

theorem renumberFrom_map_id (b : Nat) (setId : α → String → α) (gid : α → String)
    (hset : ∀ x s, gid (setId x s) = s) :
    ∀ (l : List α) (k : Nat),
      (renumberFrom b setId k l).map gid = (List.range' k l.length).map (formatBase b) := by
  intro l
  induction l with
  | nil => intro k; simp [renumberFrom]
  | cons x xs ih =>
    intro k
    simp [renumberFrom, hset, List.range'_succ, ih (k + 1)]

theorem renumberFrom_twice (b : Nat) (setId : α → String → α)
    (hset : ∀ x s s', setId (setId x s) s' = setId x s') :
    ∀ (l : List α) (k : Nat),
      renumberFrom b setId k (renumberFrom b setId k l) = renumberFrom b setId k l := by
  intro l
  induction l with
  | nil => intro k; simp [renumberFrom]
  | cons x xs ih => intro k; simp [renumberFrom, hset, ih (k + 1)]

theorem find?_of_nodup_ids (gid : α → String) :
    ∀ (l : List α), (l.map gid).Nodup → ∀ t ∈ l, l.find? (fun x => gid x == gid t) = some t := by
  intro l
  induction l with
  | nil => intro _ t ht; cases ht
  | cons h tl ih =>
    intro hnd t ht
    simp only [List.map_cons, List.nodup_cons] at hnd
    rcases List.mem_cons.mp ht with rfl | htl
    · simp [List.find?]
    · have hne : gid h ≠ gid t := by
        intro he
        exact hnd.1 (he ▸ List.mem_map_of_mem gid htl)
      rw [List.find?_cons_of_neg _ (by simpa using hne)]
      exact ih hnd.2 t htl

end IM

namespace IM

theorem run_eq (b : Nat) (feed : Feed) :
    run b feed =
      { agencies := renumberFrom b (fun x s => { x with id := s }) 1 feed.agencies,
        routes := renumberFrom b (fun x s => { x with id := s }) 1 feed.routes,
        trips := renumberFrom b (fun t s => { t with id := s }) 1 feed.trips,
        stops := renumberFrom b (fun x s => { x with id := s }) 1 feed.stops,
        services := renumberFrom b (fun x s => { x with id := s }) 1 feed.services,
        shapes := renumberFrom b (fun x s => { x with id := s }) 1 feed.shapes,
        fareAttributes := feed.fareAttributes } := rfl

theorem idsOk_renumberFrom (b : Nat) (hb2 : 2 ≤ b) (hb36 : b ≤ 36)
    (setId : α → String → α) (gid : α → String) (hset : ∀ x s, gid (setId x s) = s)
    (l : List α) :
    (renumberFrom b setId 1 l).map gid = expectedIds b l.length ∧
    idsOk gid (renumberFrom b setId 1 l) := by
  have hm := renumberFrom_map_id b setId gid hset l 1
  have hnd : ((renumberFrom b setId 1 l).map gid).Nodup := by
    rw [hm]
    exact List.Nodup.map (formatBase_inj b hb2 hb36) (List.nodup_range' _ _)
  exact ⟨hm, hnd, find?_of_nodup_ids gid _ hnd⟩

theorem run_idempotent (b : Nat) (feed : Feed) : run b (run b feed) = run b feed := by
  rw [run_eq b feed, run_eq]
  dsimp only
  congr 1
  all_goals refine renumberFrom_twice b _ ?_ _ 1
  all_goals intro x s s'
  all_goals rfl

end IM

/-! ## Claims about the id minimizer and the driver -/

/-- C7: IDMinimizer.Run changes only the Id field of entities and each
collection's key-to-entity mapping: each pool position holds the same entity
instance with only its id overwritten, so every other field and every
cross-entity reference (trip→route/service/shape, route→agency, fare
rule→route, stop-time→stop, all pool indices) is unchanged, and the fare
attribute collection is untouched entirely. -/
theorem c7_idminimizer_frame (b : Nat) (feed : IM.Feed) :
    (∀ i : Nat, (IM.run b feed).agencies[i]? =
      (feed.agencies[i]?).map (fun x : IM.Agency => { x with id := IM.formatBase b (1 + i) })) ∧
    (∀ i : Nat, (IM.run b feed).routes[i]? =
      (feed.routes[i]?).map (fun x : IM.Route => { x with id := IM.formatBase b (1 + i) })) ∧
    (∀ i : Nat, (IM.run b feed).trips[i]? =
      (feed.trips[i]?).map (fun x : IM.Trip => { x with id := IM.formatBase b (1 + i) })) ∧
    (∀ i : Nat, (IM.run b feed).stops[i]? =
      (feed.stops[i]?).map (fun x : IM.Stop => { x with id := IM.formatBase b (1 + i) })) ∧
    (∀ i : Nat, (IM.run b feed).services[i]? =
      (feed.services[i]?).map (fun x : IM.Service => { x with id := IM.formatBase b (1 + i) })) ∧
    (∀ i : Nat, (IM.run b feed).shapes[i]? =
      (feed.shapes[i]?).map (fun x : IM.Shape => { x with id := IM.formatBase b (1 + i) })) ∧
    (IM.run b feed).fareAttributes = feed.fareAttributes := by
  refine ⟨?_, ?_, ?_, ?_, ?_, ?_, rfl⟩ <;> intro i <;>
    simp [IM.run_eq, IM.renumberFrom_get?]

/-- C6 counterexample: IDMinimizer.Run does not renumber the fare attribute
collection: on a feed whose only fare attribute has id FARE_XYZ, the id stays
FARE_XYZ instead of becoming the base-10 representation "1" of the counter. -/
theorem c6_counterexample_fare_attributes_not_renumbered :
    (IM.run 10 IM.feedIM).fareAttributes.map IM.FareAttribute.id = ["FARE_XYZ"] ∧
    IM.expectedIds 10 (IM.feedIM.fareAttributes.length) = ["1"] ∧
    ("FARE_XYZ" : String) ≠ "1" := by decide

/-- C6 (amended): IDMinimizer.Run renumbers the six collections agencies,
routes, trips, stops, services and shapes — each entity's id becomes the
distinct base-10 or base-36 representation of a per-collection counter, and
each collection's identifier-to-entity mapping is rebuilt so every new id maps
to its entity — while the fare attribute collection is left untouched. -/
theorem c6_idminimizer_renumbers_six_collections (b : Nat) (feed : IM.Feed)
    (hb : b = 10 ∨ b = 36) :
    ((IM.run b feed).agencies.map IM.Agency.id = IM.expectedIds b feed.agencies.length ∧
      IM.idsOk IM.Agency.id (IM.run b feed).agencies) ∧
    ((IM.run b feed).routes.map IM.Route.id = IM.expectedIds b feed.routes.length ∧
      IM.idsOk IM.Route.id (IM.run b feed).routes) ∧
    ((IM.run b feed).trips.map IM.Trip.id = IM.expectedIds b feed.trips.length ∧
      IM.idsOk IM.Trip.id (IM.run b feed).trips) ∧
    ((IM.run b feed).stops.map IM.Stop.id = IM.expectedIds b feed.stops.length ∧
      IM.idsOk IM.Stop.id (IM.run b feed).stops) ∧
    ((IM.run b feed).services.map IM.Service.id = IM.expectedIds b feed.services.length ∧
      IM.idsOk IM.Service.id (IM.run b feed).services) ∧
    ((IM.run b feed).shapes.map IM.Shape.id = IM.expectedIds b feed.shapes.length ∧
      IM.idsOk IM.Shape.id (IM.run b feed).shapes) ∧
    (IM.run b feed).fareAttributes = feed.fareAttributes := by
  have hb2 : 2 ≤ b := by rcases hb with rfl | rfl <;> norm_num
  have hb36 : b ≤ 36 := by rcases hb with rfl | rfl <;> norm_num
  refine ⟨?_, ?_, ?_, ?_, ?_, ?_, rfl⟩ <;>
    simp only [IM.run_eq] <;>
    exact IM.idsOk_renumberFrom b hb2 hb36 _ _ (fun x s => rfl) _

/-- C6 witness: the amended claim applied at base 10 to the concrete feed. -/
theorem c6_witness :
    (10 = 10 ∨ 10 = 36) ∧
    (IM.run 10 IM.feedIM).routes.map IM.Route.id = IM.expectedIds 10 IM.feedIM.routes.length :=
  ⟨Or.inl rfl, (c6_idminimizer_renumbers_six_collections 10 IM.feedIM (Or.inl rfl)).2.1.1⟩

/-- C10: in validation-only mode the parser options are forced strict: even
with the default-on-errors and drop-erroneous flags set, UseDefValueOnError
and DropErroneous are false (and DryRun is on). -/
theorem c10_validation_mode_forces_strict_parsing :
    ∀ useDef dropErr : Bool,
      (CLI.mkParseOpts true useDef dropErr).useDefValueOnError = false ∧
      (CLI.mkParseOpts true useDef dropErr).dropErroneous = false ∧
      (CLI.mkParseOpts true useDef dropErr).dryRun = true := by decide

/-- C8 counterexample: a run in which a processor panics is recovered by the
deferred handler, which prints the diagnostic — but main then returns
normally, so the process exits 0, not 1 as the claim states. -/
theorem c8_counterexample_recovered_panic_exits_zero :
    (CLI.mainRun (CLI.mkArgs true false false false none true none)).exitCode = 0 ∧
    (CLI.mainRun (CLI.mkArgs true false false false none true none)).stderr ≠ [] := by
  decide

/-- C8 (amended): a missing input path, a parse failure and a write failure
print a diagnostic to the error stream and exit 1; a recovered processor panic
prints a diagnostic but the process exits 0; the success paths (validation
passed, or transform and write succeeded) exit 0. -/
theorem c8_exit_codes_and_diagnostics :
    ∀ (v ud de pp : Bool) (pe : Option String) (e : String) (w : Option String),
      ((CLI.mainRun (CLI.mkArgs false v ud de pe pp w)).exitCode = 1 ∧
        (CLI.mainRun (CLI.mkArgs false v ud de pe pp w)).stderr ≠ []) ∧
      ((CLI.mainRun (CLI.mkArgs true v ud de (some e) pp w)).exitCode = 1 ∧
        (CLI.mainRun (CLI.mkArgs true v ud de (some e) pp w)).stderr ≠ []) ∧
      ((CLI.mainRun (CLI.mkArgs true false ud de none true w)).exitCode = 0 ∧
        (CLI.mainRun (CLI.mkArgs true false ud de none true w)).stderr ≠ []) ∧
      ((CLI.mainRun (CLI.mkArgs true false ud de none false (some e))).exitCode = 1 ∧
        (CLI.mainRun (CLI.mkArgs true false ud de none false (some e))).stderr ≠ []) ∧
      (CLI.mainRun (CLI.mkArgs true true ud de none pp w)).exitCode = 0 ∧
      (CLI.mainRun (CLI.mkArgs true false ud de none false none)).exitCode = 0 := by
  intro v ud de pp pe e w
  cases pe <;> simp [CLI.mainRun, CLI.mkArgs]

/-! ## Concrete claims about the route duplicate remover -/

/-- C3 (the code violates the claim): in feedC3 every trip route reference and
every fare rule route reference resolves, yet after Run the trip Trrr
references route rr, which is no longer in the routes collection: the merge
machinery picked the already-deleted route rr as reference of the second
merge group and created a dangling handle. -/
theorem c3_dangling_trip_route_after_run :
    (∀ t ∈ RD.feedC3.trips, ∃ r ∈ RD.feedC3.routes, r.id = t.route) ∧
    (∀ fa ∈ RD.feedC3.fareAttributes, ∀ fr ∈ fa.rules,
      ∃ r ∈ RD.feedC3.routes, r.id = fr.route) ∧
    RD.run 1 RD.feedC3 = some RD.feedC3run ∧
    ¬(∀ t ∈ RD.feedC3run.trips, ∃ r ∈ RD.feedC3run.routes, r.id = t.route) := by
  decide

/-- C5 (the code violates the claim): in feedC5 the two routes are
field-identical and fare-compatible (their two rules pair off one-to-one
inside attribute F), so Run merges them; removing the superseded route's two
trailing rules with the swap-with-last loop then indexes out of range, a
runtime panic (none) — instead of removing the rules and conditionally
deleting the attribute as the claim describes. -/
theorem c5_fare_rule_removal_panics :
    RD.routeEquals (RD.mkRoute "R1") (RD.mkRoute "R22") = true ∧
    RD.checkFareEquality RD.feedC5 (RD.mkRoute "R1") (RD.mkRoute "R22") = true ∧
    RD.run 1 RD.feedC5 = none := by decide

/-- C9 counterexample: all route deletions Run performs happen in
combineRoutes called from inside the loop iterating over feed.Routes; on
feedC2 that loop deletes one of the two routes, so a deletion does occur
inside an active iteration over feed.Routes. -/
theorem c9_counterexample_route_deleted_during_iteration :
    RD.feedC2.routes.length = 2 ∧
    (RD.run 1 RD.feedC2).map (fun f => f.routes.length) = some 1 := by decide

/-! ## The fare rule pairing of fareRulesEqual as a multiset comparison -/

namespace RD

theorem ruleKeys_nil : ruleKeys [] = 0 := rfl

theorem ruleKeys_append (l1 l2 : List FareRule) :
    ruleKeys (l1 ++ l2) = ruleKeys l1 + ruleKeys l2 := by
  simp [ruleKeys]

theorem ruleKeys_cons (r : FareRule) (l : List FareRule) :
    ruleKeys (r :: l) = ruleKey r ::ₘ ruleKeys l := by
  simp [ruleKeys]

theorem ruleKeys_singleton (r : FareRule) : ruleKeys [r] = {ruleKey r} := rfl

theorem ruleKeys_eq_zero {l : List FareRule} (h : ruleKeys l = 0) : l = [] := by
  cases l with
  | nil => rfl
  | cons x xs => simp [ruleKeys_cons] at h

theorem routeKeys_append (rid : String) (l1 l2 : List FareRule) :
    routeKeys rid (l1 ++ l2) = routeKeys rid l1 + routeKeys rid l2 := by
  simp [routeKeys, List.filter_append, ruleKeys_append]

theorem routeKeys_singleton (rid : String) (r : FareRule) :
    routeKeys rid [r] = if r.route == rid then {ruleKey r} else 0 := by
  by_cases h : (r.route == rid) = true <;> simp [routeKeys, List.filter, h, ruleKeys]

theorem findRemoveKey_eq_none (k : String × String × String) :
    ∀ l : List FareRule, findRemoveKey k l = none ↔ ∀ x ∈ l, ruleKey x ≠ k := by
  intro l
  induction l with
  | nil => simp [findRemoveKey]
  | cons r rest ih =>
    by_cases h : ruleKey r = k
    · simp [findRemoveKey, h]
    · simp only [findRemoveKey, if_neg h, Option.map_eq_none', ih]
      constructor
      · intro hall x hx
        rcases List.mem_cons.mp hx with rfl | hx'
        · exact h
        · exact hall x hx'
      · intro hall x hx
        exact hall x (List.mem_cons_of_mem r hx)

theorem findRemoveKey_keys (k : String × String × String) :
    ∀ l l' : List FareRule, findRemoveKey k l = some l' →
      k ::ₘ ruleKeys l' = ruleKeys l := by
  intro l
  induction l with
  | nil => intro l' h; simp [findRemoveKey] at h
  | cons r rest ih =>
    intro l' h
    by_cases hk : ruleKey r = k
    · simp only [findRemoveKey, if_pos hk, Option.some.injEq] at h
      subst h
      rw [ruleKeys_cons, hk]
    · simp only [findRemoveKey, if_neg hk] at h
      rcases Option.map_eq_some'.mp h with ⟨rec', hrec, rfl⟩
      rw [ruleKeys_cons, ruleKeys_cons, ← ih rec' hrec]
      exact Multiset.cons_swap k (ruleKey r) (ruleKeys rec')

theorem findRemoveKey_sub (k : String × String × String) (l l' : List FareRule)
    (h : findRemoveKey k l = some l') : ruleKeys l' ≤ ruleKeys l := by
  rw [← findRemoveKey_keys k l l' h]
  exact Multiset.le_cons_self _ _

end RD

namespace RD

theorem mem_ruleKeys {k : String × String × String} {l : List FareRule} :
    k ∈ ruleKeys l ↔ ∃ x ∈ l, ruleKey x = k := by
  simp [ruleKeys]

theorem fareStep_inv (aId bId : String) (hab : aId ≠ bId) (P : List FareRule) (r : FareRule)
    (s : List FareRule × List FareRule)
    (hbal : routeKeys aId P + ruleKeys s.2 = routeKeys bId P + ruleKeys s.1)
    (hdisj : ∀ k ∈ ruleKeys s.1, k ∉ ruleKeys s.2) :
    routeKeys aId (P ++ [r]) + ruleKeys (fareStep aId bId s r).2 =
      routeKeys bId (P ++ [r]) + ruleKeys (fareStep aId bId s r).1 ∧
    ∀ k ∈ ruleKeys (fareStep aId bId s r).1, k ∉ ruleKeys (fareStep aId bId s r).2 := by
  by_cases hra : (r.route == aId) = true
  · have hroute : r.route = aId := by simpa using hra
    have hrb : (r.route == bId) = false := by
      simp [hroute, hab]
    have hPa : routeKeys aId (P ++ [r]) = routeKeys aId P + {ruleKey r} := by
      rw [routeKeys_append, routeKeys_singleton, if_pos hra]
    have hPb : routeKeys bId (P ++ [r]) = routeKeys bId P := by
      rw [routeKeys_append, routeKeys_singleton, hrb]
      simp
    cases hfind : findRemoveKey (ruleKey r) s.2 with
    | some rb =>
      have hstep : fareStep aId bId s r = (s.1, rb) := by
        simp [fareStep, hra, hrb, hfind]
      have hk : ({ruleKey r} : Multiset _) + ruleKeys rb = ruleKeys s.2 := by
        rw [Multiset.singleton_add]
        exact findRemoveKey_keys _ _ _ hfind
      rw [hstep]
      refine ⟨?_, ?_⟩
      · dsimp only
        rw [hPa, hPb, add_assoc, hk, hbal]
      · dsimp only
        intro k hk1 hk2
        exact hdisj k hk1 (Multiset.mem_of_le (findRemoveKey_sub _ _ _ hfind) hk2)
    | none =>
      have hstep : fareStep aId bId s r = (s.1 ++ [r], s.2) := by
        simp [fareStep, hra, hrb, hfind]
      have hnone : ∀ x ∈ s.2, ruleKey x ≠ ruleKey r := (findRemoveKey_eq_none _ _).mp hfind
      rw [hstep]
      refine ⟨?_, ?_⟩
      · dsimp only
        rw [hPa, hPb, ruleKeys_append, ruleKeys_singleton, add_right_comm, hbal, add_assoc]
      · dsimp only
        intro k hk1 hk2
        rw [ruleKeys_append, ruleKeys_singleton, Multiset.mem_add, Multiset.mem_singleton] at hk1
        rcases hk1 with hk1 | rfl
        · exact hdisj k hk1 hk2
        · rcases mem_ruleKeys.mp hk2 with ⟨x, hx, hxk⟩
          exact hnone x hx hxk
  · have hPa : routeKeys aId (P ++ [r]) = routeKeys aId P := by
      rw [routeKeys_append, routeKeys_singleton, if_neg (by simpa using hra)]
      simp
    by_cases hrb : (r.route == bId) = true
    · have hPb : routeKeys bId (P ++ [r]) = routeKeys bId P + {ruleKey r} := by
        rw [routeKeys_append, routeKeys_singleton, if_pos hrb]
      cases hfind : findRemoveKey (ruleKey r) s.1 with
      | some ra =>
        have hstep : fareStep aId bId s r = (ra, s.2) := by
          simp [fareStep, hra, hrb, hfind]
        have hk : ({ruleKey r} : Multiset _) + ruleKeys ra = ruleKeys s.1 := by
          rw [Multiset.singleton_add]
          exact findRemoveKey_keys _ _ _ hfind
        rw [hstep]
        refine ⟨?_, ?_⟩
        · dsimp only
          rw [hPa, hPb, add_assoc, hk, hbal]
        · dsimp only
          intro k hk1 hk2
          exact hdisj k (Multiset.mem_of_le (findRemoveKey_sub _ _ _ hfind) hk1) hk2
      | none =>
        have hstep : fareStep aId bId s r = (s.1, s.2 ++ [r]) := by
          simp [fareStep, hra, hrb, hfind]
        have hnone : ∀ x ∈ s.1, ruleKey x ≠ ruleKey r := (findRemoveKey_eq_none _ _).mp hfind
        rw [hstep]
        refine ⟨?_, ?_⟩
        · dsimp only
          rw [hPa, hPb, ruleKeys_append, ruleKeys_singleton, ← add_assoc, hbal,
            add_right_comm]
        · dsimp only
          intro k hk1 hk2
          rw [ruleKeys_append, ruleKeys_singleton, Multiset.mem_add,
            Multiset.mem_singleton] at hk2
          rcases hk2 with hk2 | rfl
          · exact hdisj k hk1 hk2
          · rcases mem_ruleKeys.mp hk1 with ⟨x, hx, hxk⟩
            exact hnone x hx hxk
    · have hstep : fareStep aId bId s r = s := by
        simp [fareStep, hra, hrb]
      have hPb : routeKeys bId (P ++ [r]) = routeKeys bId P := by
        rw [routeKeys_append, routeKeys_singleton, if_neg (by simpa using hrb)]
        simp
      rw [hstep, hPa, hPb]
      exact ⟨hbal, hdisj⟩

theorem foldl_fare_inv (aId bId : String) (hab : aId ≠ bId) :
    ∀ (rules P : List FareRule) (s : List FareRule × List FareRule),
      routeKeys aId P + ruleKeys s.2 = routeKeys bId P + ruleKeys s.1 →
      (∀ k ∈ ruleKeys s.1, k ∉ ruleKeys s.2) →
      routeKeys aId (P ++ rules) + ruleKeys (rules.foldl (fareStep aId bId) s).2 =
          routeKeys bId (P ++ rules) + ruleKeys (rules.foldl (fareStep aId bId) s).1 ∧
        ∀ k ∈ ruleKeys (rules.foldl (fareStep aId bId) s).1,
          k ∉ ruleKeys (rules.foldl (fareStep aId bId) s).2 := by
  intro rules
  induction rules with
  | nil =>
    intro P s hbal hdisj
    simp only [List.foldl_nil, List.append_nil]
    exact ⟨hbal, hdisj⟩
  | cons r rest ih =>
    intro P s hbal hdisj
    have hstep := fareStep_inv aId bId hab P r s hbal hdisj
    have h2 := ih (P ++ [r]) (fareStep aId bId s r) hstep.1 hstep.2
    have hPr : P ++ r :: rest = (P ++ [r]) ++ rest := by simp
    rw [List.foldl_cons, hPr]
    exact h2

theorem fareRulesEqual_iff_msKeys (attr : FareAttribute) (a b : Route) (hab : a.id ≠ b.id) :
    fareRulesEqual attr a b = true ↔ msKeys a.id attr = msKeys b.id attr := by
  have h := foldl_fare_inv a.id b.id hab attr.rules [] ([], [])
    (by simp [routeKeys, ruleKeys]) (by simp [ruleKeys])
  simp only [List.nil_append] at h
  unfold fareRulesEqual
  rw [Bool.and_eq_true, List.isEmpty_iff, List.isEmpty_iff]
  unfold msKeys
  constructor
  · rintro ⟨h1, h2⟩
    rw [h1, h2] at h
    simpa [ruleKeys] using h.1
  · intro heq
    rw [heq] at h
    have hcancel : ruleKeys (attr.rules.foldl (fareStep a.id b.id) ([], [])).2 =
        ruleKeys (attr.rules.foldl (fareStep a.id b.id) ([], [])).1 :=
      add_left_cancel h.1
    have hzero : ruleKeys (attr.rules.foldl (fareStep a.id b.id) ([], [])).1 = 0 := by
      by_contra hne
      rcases Multiset.exists_mem_of_ne_zero hne with ⟨k, hk⟩
      exact h.2 k hk (hcancel ▸ hk)
    refine ⟨ruleKeys_eq_zero hzero, ruleKeys_eq_zero ?_⟩
    rw [hcancel, hzero]

end RD

namespace RD

theorem msKeys_zero_of_no_rule (rid : String) (fa : FareAttribute)
    (h : ∀ fr ∈ fa.rules, ¬fr.route = rid) : msKeys rid fa = 0 := by
  unfold msKeys routeKeys
  have hf : fa.rules.filter (fun r => r.route == rid) = [] := by
    rw [List.filter_eq_nil_iff]
    intro x hx
    simpa using h x hx
  rw [hf, ruleKeys_nil]

theorem checkFareEquality_iff (feed : Feed) (a b : Route) (hab : a.id ≠ b.id) :
    checkFareEquality feed a b = true ↔
      ∀ fa ∈ feed.fareAttributes, msKeys a.id fa = msKeys b.id fa := by
  unfold checkFareEquality
  rw [List.all_eq_true]
  constructor
  · intro h fa hfa
    rcases Bool.or_eq_true_iff.mp (h fa hfa) with hnot | heq
    · have hany : (fa.rules.any fun fr => fr.route == a.id || fr.route == b.id) = false := by
        simpa using hnot
      rw [List.any_eq_false] at hany
      have ha : msKeys a.id fa = 0 := by
        refine msKeys_zero_of_no_rule _ _ fun fr hfr he => ?_
        have := hany fr hfr
        simp [he] at this
      have hb : msKeys b.id fa = 0 := by
        refine msKeys_zero_of_no_rule _ _ fun fr hfr he => ?_
        have := hany fr hfr
        simp [he] at this
      rw [ha, hb]
    · exact (fareRulesEqual_iff_msKeys fa a b hab).mp heq
  · intro h fa hfa
    by_cases hany : (fa.rules.any fun fr => fr.route == a.id || fr.route == b.id) = true
    · have := (fareRulesEqual_iff_msKeys fa a b hab).mpr (h fa hfa)
      simp [this]
    · have : (fa.rules.any fun fr => fr.route == a.id || fr.route == b.id) = false := by
        simpa using hany
      simp [this]

end RD

/-- C1: RouteDuplicateRemover admits a route into a merge group only if it is
field-identical to the subject route and checkFareEquality holds, and
fareRulesEqual compares, for each fare attribute, the multiset of rule keys
(origin, destination, contains) attributable to each route: the rules must
pair off exactly one-to-one — any unmatched rule on either side, including a
rule present twice for one route but only once for the other, makes the
comparison fail and prevents the merge. -/
theorem c1_merge_requires_field_and_fare_equality :
    (∀ (feed : RD.Feed) (route : RD.Route) (chunks : List (List RD.Route)) (r : RD.Route),
        r ∈ RD.getEquivalentRoutes feed route chunks →
          r ≠ route ∧ RD.routeEquals r route = true ∧
            RD.checkFareEquality feed route r = true) ∧
    (∀ (attr : RD.FareAttribute) (a b : RD.Route), a.id ≠ b.id →
        (RD.fareRulesEqual attr a b = true ↔ RD.msKeys a.id attr = RD.msKeys b.id attr)) := by
  constructor
  · intro feed route chunks r hr
    unfold RD.getEquivalentRoutes at hr
    rw [List.mem_flatten] at hr
    rcases hr with ⟨l, hl, hrl⟩
    rw [List.mem_map] at hl
    rcases hl with ⟨c, _, rfl⟩
    rw [List.mem_filter] at hrl
    have hcond := hrl.2
    simp only [Bool.and_eq_true, bne_iff_ne, ne_eq] at hcond
    exact ⟨hcond.1.1, hcond.1.2, hcond.2⟩
  · intro attr a b hab
    exact RD.fareRulesEqual_iff_msKeys attr a b hab

/-- C1 witness: the gate applied to concrete inputs: route R22 is in the
group getEquivalentRoutes finds for R1 in feedC2, hence field- and fare-equal
to it; and on the concrete attribute attrC5 the pairing criterion coincides
with the key multiset comparison. -/
theorem c1_witness :
    (RD.routeEquals (RD.mkRoute "R22") (RD.mkRoute "R1") = true ∧
      RD.checkFareEquality RD.feedC2 (RD.mkRoute "R1") (RD.mkRoute "R22") = true) ∧
    (RD.fareRulesEqual RD.attrC5 (RD.mkRoute "R1") (RD.mkRoute "R22") = true ↔
      RD.msKeys (RD.mkRoute "R1").id RD.attrC5 = RD.msKeys (RD.mkRoute "R22").id RD.attrC5) :=
  ⟨((c1_merge_requires_field_and_fare_equality.1 RD.feedC2 (RD.mkRoute "R1")
      (RD.chunksOf 2 RD.feedC2.routes) (RD.mkRoute "R22")) (by decide)).2,
   c1_merge_requires_field_and_fare_equality.2 RD.attrC5 (RD.mkRoute "R1") (RD.mkRoute "R22")
      (by decide)⟩

/-! ## The effect of combineRoutes on the feed -/

namespace RD

theorem pickRef_le : ∀ (grp : List Route) (g0 : Route),
    (pickRef g0 grp).id.length ≤ g0.id.length ∧
      ∀ g ∈ grp, (pickRef g0 grp).id.length ≤ g.id.length := by
  intro grp
  induction grp with
  | nil => intro g0; simp [pickRef]
  | cons r rest ih =>
    intro g0
    by_cases h : r.id.length < g0.id.length
    · have hr := ih r
      have h1 : pickRef g0 (r :: rest) = pickRef r rest := by
        simp [pickRef, List.foldl_cons, if_pos h]
      rw [h1]
      refine ⟨le_trans hr.1 (le_of_lt h), ?_⟩
      intro g hg
      rcases List.mem_cons.mp hg with rfl | hg'
      · exact hr.1
      · exact hr.2 g hg'
    · have hr := ih g0
      have h1 : pickRef g0 (r :: rest) = pickRef g0 rest := by
        simp [pickRef, List.foldl_cons, if_neg h]
      rw [h1]
      refine ⟨hr.1, ?_⟩
      intro g hg
      rcases List.mem_cons.mp hg with rfl | hg'
      · exact le_trans hr.1 (Nat.le_of_not_lt h)
      · exact hr.2 g hg'

theorem pickRef_mem : ∀ (grp : List Route) (g0 : Route),
    pickRef g0 grp = g0 ∨ pickRef g0 grp ∈ grp := by
  intro grp
  induction grp with
  | nil => intro g0; simp [pickRef]
  | cons r rest ih =>
    intro g0
    by_cases h : r.id.length < g0.id.length
    · have h1 : pickRef g0 (r :: rest) = pickRef r rest := by
        simp [pickRef, List.foldl_cons, if_pos h]
      rw [h1]
      rcases ih r with he | hm
      · exact Or.inr (by simp [he])
      · exact Or.inr (List.mem_cons_of_mem r hm)
    · have h1 : pickRef g0 (r :: rest) = pickRef g0 rest := by
        simp [pickRef, List.foldl_cons, if_neg h]
      rw [h1]
      rcases ih g0 with he | hm
      · exact Or.inl he
      · exact Or.inr (List.mem_cons_of_mem r hm)

theorem combineMember_eq_of_ne (tIdx : String → List Nat) (ref : Route) (feed : Feed)
    (m : Route) (hm : m ≠ ref) :
    combineMember tIdx ref feed m =
      (processFareAttrs m.id feed.fareAttributes).map (fun attrs' =>
        { routes := feed.routes.filter (fun x => x.id != m.id),
          trips := repointTrips feed.trips (tIdx m.id) m.id ref.id,
          fareAttributes := attrs' }) := by
  rw [combineMember, if_neg hm]
  cases h : processFareAttrs m.id feed.fareAttributes <;> simp [h]

end RD

namespace RD

theorem combineMembers_routes (tIdx : String → List Nat) (ref : Route) :
    ∀ (mem : List Route) (feed f' : Feed),
      List.foldlM (combineMember tIdx ref) feed mem = some f' →
      f'.routes = feed.routes.filter
        (fun x => (mem.filter (fun g => g != ref)).all (fun g => x.id != g.id)) := by
  intro mem
  induction mem with
  | nil =>
    intro feed f' h
    simp only [List.foldlM_nil] at h
    cases h
    simp
  | cons m rest ih =>
    intro feed f' h
    rw [List.foldlM_cons] at h
    rcases Option.bind_eq_some.mp h with ⟨feed1, h1, h2⟩
    by_cases hm : m = ref
    · subst hm
      rw [combineMember, if_pos rfl] at h1
      cases h1
      have hrest := ih feed f' h2
      rw [hrest]
      apply List.filter_congr
      intro x _
      simp [List.filter_cons]
    · rw [combineMember_eq_of_ne tIdx ref feed m hm] at h1
      rcases Option.map_eq_some'.mp h1 with ⟨attrs', _, hfeed1⟩
      subst hfeed1
      have hrest := ih _ f' h2
      rw [hrest]
      dsimp only
      rw [List.filter_filter]
      apply List.filter_congr
      intro x _
      have hmr : (m != ref) = true := by simpa using hm
      simp [List.filter_cons, hmr, List.all_cons, Bool.and_comm]

theorem repointTrips_get? :
    ∀ (idxs : List Nat) (ts : List Trip) (rid refId : String) (i : Nat),
      (repointTrips ts idxs rid refId)[i]? =
        (ts[i]?).map (fun t => if i ∈ idxs ∧ t.route = rid then { t with route := refId } else t) := by
  intro idxs
  induction idxs with
  | nil =>
    intro ts rid refId i
    simp [repointTrips]
  | cons j rest ih =>
    intro ts rid refId i
    have hstep :
        (repointTrips ts (j :: rest) rid refId) =
          repointTrips
            (match ts[j]? with
             | some t => if t.route == rid then ts.set j { t with route := refId } else ts
             | none => ts) rest rid refId := by
      simp [repointTrips, List.foldl_cons]
    rw [hstep, ih]
    have hmid :
        (match ts[j]? with
           | some t => if t.route == rid then ts.set j { t with route := refId } else ts
           | none => ts)[i]? =
          (ts[i]?).map (fun t => if i = j ∧ t.route = rid then { t with route := refId } else t) := by
      cases htj : ts[j]? with
      | none =>
        by_cases hij : i = j
        · subst hij
          simp [htj]
        · cases hti : ts[i]? <;> simp [hti, hij]
      | some tj =>
        dsimp only
        by_cases hroute : (tj.route == rid) = true
        · have hroute' : tj.route = rid := by simpa using hroute
          rw [if_pos hroute]
          by_cases hij : i = j
          · subst hij
            rw [List.getElem?_set_self']
            rw [htj]
            simp [hroute']
          · rw [List.getElem?_set_ne (by omega : j ≠ i)]
            cases hti : ts[i]? <;> simp [hti, hij]
        · have hroute' : ¬tj.route = rid := by simpa using hroute
          rw [if_neg hroute]
          by_cases hij : i = j
          · subst hij
            rw [htj]
            simp [hroute']
          · cases hti : ts[i]? <;> simp [hti, hij]
    rw [hmid]
    rw [Option.map_map]
    cases hti : ts[i]? with
    | none => simp
    | some t =>
      simp only [Option.map_some', Function.comp]
      congr 1
      by_cases hij : i = j
      · subst hij
        by_cases hroute : t.route = rid
        · simp [hroute]
        · simp [hroute]
      · by_cases hmem : i ∈ rest
        · simp [hij, hmem]
        · simp [hij, hmem]

end RD

namespace RD

theorem tripIndicesFor_spec (trips : List Trip) :
    ∀ (rid : String) (i : Nat),
      i ∈ tripIndicesFor trips rid ↔ ∃ t, trips[i]? = some t ∧ t.route = rid := by
  intro rid i
  unfold tripIndicesFor idxsWhere
  rw [List.mem_filter, List.mem_range]
  cases h : trips[i]? with
  | none =>
    have hlen : trips.length ≤ i := List.getElem?_eq_none_iff.mp h
    constructor
    · rintro ⟨hi, _⟩; omega
    · rintro ⟨t, ht, _⟩; cases ht
  | some t =>
    have hlen : i < trips.length := by
      by_contra hge
      rw [List.getElem?_eq_none_iff.mpr (Nat.le_of_not_lt hge)] at h
      cases h
    constructor
    · rintro ⟨_, hp⟩
      simp only [h] at hp
      exact ⟨t, rfl, by simpa using hp⟩
    · rintro ⟨t', ht', hroute⟩
      cases ht'
      refine ⟨hlen, ?_⟩
      simpa using hroute

end RD

namespace RD

theorem combineMembers_trips (tIdx : String → List Nat) (ref : Route) (T0 : List Trip)
    (htidx : ∀ (rid : String) (i : Nat),
      i ∈ tIdx rid ↔ ∃ t, T0[i]? = some t ∧ t.route = rid) :
    ∀ (mem : List Route) (feed f' : Feed) (done : List String),
      (∀ i : Nat, feed.trips[i]? = (T0[i]?).map
        (fun t : Trip => if t.route ∈ done then { t with route := ref.id } else t)) →
      (∀ m ∈ mem, m ≠ ref → m.id ≠ ref.id) →
      (∀ m ∈ mem, m.id ∉ done) →
      (mem.map Route.id).Nodup →
      List.foldlM (combineMember tIdx ref) feed mem = some f' →
      ∀ i : Nat, f'.trips[i]? = (T0[i]?).map
        (fun t : Trip => if t.route ∈ done ++ (mem.filter (fun g => g != ref)).map Route.id
                  then { t with route := ref.id } else t) := by
  intro mem
  induction mem with
  | nil =>
    intro feed f' done hcur _ _ _ h i
    simp only [List.foldlM_nil] at h
    cases h
    simpa using hcur i
  | cons m rest ih =>
    intro feed f' done hcur href hdone hnodup h i
    rw [List.foldlM_cons] at h
    rcases Option.bind_eq_some.mp h with ⟨feed1, h1, h2⟩
    by_cases hm : m = ref
    · subst hm
      rw [combineMember, if_pos rfl] at h1
      cases h1
      have hres := ih feed f' done hcur
        (fun g hg => href g (List.mem_cons_of_mem m hg))
        (fun g hg => hdone g (List.mem_cons_of_mem m hg))
        (by simpa using hnodup.of_cons) h2 i
      rw [hres]
      have hfc : (m :: rest).filter (fun g => g != m) = rest.filter (fun g => g != m) := by
        rw [List.filter_cons]
        simp
      rw [hfc]
    · rw [combineMember_eq_of_ne tIdx ref feed m hm] at h1
      rcases Option.map_eq_some'.mp h1 with ⟨attrs', _, hfeed1⟩
      subst hfeed1
      have hmid : m.id ≠ ref.id := href m (List.mem_cons_self m rest) hm
      -- the trips of the intermediate feed, over the new processed set done ++ [m.id]
      have hcur1 : ∀ j : Nat, (repointTrips feed.trips (tIdx m.id) m.id ref.id)[j]? =
          (T0[j]?).map (fun t : Trip =>
            if t.route ∈ done ++ [m.id] then { t with route := ref.id } else t) := by
        intro j
        rw [repointTrips_get?, hcur j, Option.map_map]
        cases ht : T0[j]? with
        | none => simp
        | some t =>
          simp only [Option.map_some', Function.comp]
          congr 1
          by_cases hdonem : t.route ∈ done
          · have hne : ({ t with route := ref.id } : Trip).route ≠ m.id := by
              simpa using Ne.symm hmid
            simp only [if_pos hdonem]
            rw [if_neg (by intro hc; exact hne hc.2)]
            rw [if_pos (by simp [hdonem])]
          · simp only [if_neg hdonem]
            by_cases hroute : t.route = m.id
            · have hj : j ∈ tIdx m.id := (htidx m.id j).mpr ⟨t, ht, hroute⟩
              rw [if_pos ⟨hj, hroute⟩]
              rw [if_pos (by simp [hroute])]
            · rw [if_neg (by intro hc; exact hroute hc.2)]
              rw [if_neg (by simp [hdonem, hroute])]
      have hres := ih _ f' (done ++ [m.id]) (fun j => hcur1 j)
        (fun g hg => href g (List.mem_cons_of_mem m hg))
        (fun g hg => by
          have h1 := hdone g (List.mem_cons_of_mem m hg)
          have h2 : g.id ≠ m.id := by
            intro he
            have := hnodup
            rw [List.map_cons, List.nodup_cons] at this
            exact this.1 (he ▸ List.mem_map_of_mem Route.id hg)
          simp [h1, h2])
        (by simpa using hnodup.of_cons) h2 i
      rw [hres]
      cases ht : T0[i]? with
      | none => simp
      | some t =>
        simp only [Option.map_some']
        congr 1
        have hmemiff : t.route ∈ (done ++ [m.id]) ++ (rest.filter (fun g => g != ref)).map Route.id ↔
            t.route ∈ done ++ ((m :: rest).filter (fun g => g != ref)).map Route.id := by
          have hmr : (m != ref) = true := by simpa using hm
          simp [List.filter_cons, hmr, List.mem_append, or_assoc]
        by_cases hc : t.route ∈ (done ++ [m.id]) ++ (rest.filter (fun g => g != ref)).map Route.id
        · rw [if_pos hc, if_pos (hmemiff.mp hc)]
        · rw [if_neg hc, if_neg (fun hx => hc (hmemiff.mpr hx))]

end RD

/-- C2: when RouteDuplicateRemover merges a group of equivalent routes, the
canonical reference is a group member of minimal identifier length, every
superseded group member is deleted from the routes collection, and every trip
that referenced a superseded member references the canonical route afterwards
(all other trips are unchanged); in particular, on the concrete feed with
routes R1 and R22 and trips T1 on R1 and T2 on R22, Run yields Routes = {R1}
with both trips on R1. -/
theorem c2_merge_canonical_repoint_delete :
    RD.run 1 RD.feedC2 = some RD.feedC2run ∧
    ∀ (feed : RD.Feed) (tIdx : String → List Nat) (g0 : RD.Route) (rest : List RD.Route)
      (f' : RD.Feed),
      ((g0 :: rest : List RD.Route).map RD.Route.id).Nodup →
      (∀ (rid : String) (i : Nat),
        i ∈ tIdx rid ↔ ∃ t, feed.trips[i]? = some t ∧ t.route = rid) →
      RD.combineRoutes feed tIdx (g0 :: rest) = some f' →
      (RD.pickRef g0 (g0 :: rest) ∈ g0 :: rest ∧
        ∀ g ∈ g0 :: rest, (RD.pickRef g0 (g0 :: rest)).id.length ≤ g.id.length) ∧
      (∀ g ∈ g0 :: rest, g ≠ RD.pickRef g0 (g0 :: rest) → ∀ x ∈ f'.routes, x.id ≠ g.id) ∧
      (∀ (i : Nat) (t : RD.Trip), feed.trips[i]? = some t →
        f'.trips[i]? = some (if t.route ∈ ((g0 :: rest).filter
            (fun g => g != RD.pickRef g0 (g0 :: rest))).map RD.Route.id
          then { t with route := (RD.pickRef g0 (g0 :: rest)).id } else t)) := by
  constructor
  · decide
  · intro feed tIdx g0 rest f' hnodup htidx hcomb
    have hcr : RD.combineRoutes feed tIdx (g0 :: rest) =
        List.foldlM (RD.combineMember tIdx (RD.pickRef g0 (g0 :: rest))) feed (g0 :: rest) :=
      rfl
    rw [hcr] at hcomb
    have hrefmem : RD.pickRef g0 (g0 :: rest) ∈ g0 :: rest := by
      rcases RD.pickRef_mem (g0 :: rest) g0 with he | hm
      · rw [he]; exact List.mem_cons_self _ _
      · exact hm
    refine ⟨⟨hrefmem, (RD.pickRef_le (g0 :: rest) g0).2⟩, ?_, ?_⟩
    · intro g hg hgne x hx
      have hroutes := RD.combineMembers_routes tIdx _ (g0 :: rest) feed f' hcomb
      rw [hroutes, List.mem_filter] at hx
      have hall := hx.2
      rw [List.all_eq_true] at hall
      have hgf : g ∈ (g0 :: rest).filter (fun g => g != RD.pickRef g0 (g0 :: rest)) := by
        rw [List.mem_filter]
        exact ⟨hg, by simpa using hgne⟩
      have := hall g hgf
      simpa using this
    · intro i t ht
      have href : ∀ m ∈ g0 :: rest, m ≠ RD.pickRef g0 (g0 :: rest) →
          m.id ≠ (RD.pickRef g0 (g0 :: rest)).id := by
        intro m hm hmne he
        exact hmne (List.inj_on_of_nodup_map hnodup hm hrefmem he)
      have htr := RD.combineMembers_trips tIdx (RD.pickRef g0 (g0 :: rest)) feed.trips htidx
        (g0 :: rest) feed f' []
        (fun j => by cases hj : feed.trips[j]? <;> simp)
        href (fun m _ => by simp) hnodup hcomb i
      rw [ht] at htr
      simpa using htr

/-- C2 witness: the general merge statement applied to the concrete group
{R22, R1} of feedC2: combining repoints trip T2 from R22 to the canonical R1. -/
theorem c2_witness :
    RD.combineRoutes RD.feedC2 (RD.tripIndicesFor RD.feedC2.trips)
        [RD.mkRoute "R22", RD.mkRoute "R1"] = some RD.feedC2run ∧
    RD.feedC2run.trips[1]? = some { id := "T2", route := "R1" } := by
  have hcomb : RD.combineRoutes RD.feedC2 (RD.tripIndicesFor RD.feedC2.trips)
      [RD.mkRoute "R22", RD.mkRoute "R1"] = some RD.feedC2run := by decide
  have h := c2_merge_canonical_repoint_delete.2 RD.feedC2
    (RD.tripIndicesFor RD.feedC2.trips) (RD.mkRoute "R22") [RD.mkRoute "R1"] RD.feedC2run
    (by decide) (RD.tripIndicesFor_spec RD.feedC2.trips) hcomb
  have h2 := h.2.2 1 { id := "T2", route := "R22" } (by decide)
  refine ⟨hcomb, ?_⟩
  rw [h2]
  decide

namespace RD

theorem runLoop_cons (chunks : List (List Route)) (tIdx : String → List Nat) (r : Route)
    (rest : List Route) (feed : Feed) (proced : List String) :
    runLoop chunks tIdx (r :: rest) feed proced =
      if r.id ∈ proced then runLoop chunks tIdx rest feed proced
      else if (getEquivalentRoutes feed r chunks).isEmpty then
        runLoop chunks tIdx rest feed proced
      else
        (combineRoutes feed tIdx (getEquivalentRoutes feed r chunks ++ [r])).bind
          (fun feed' => runLoop chunks tIdx rest feed'
            (proced ++ (getEquivalentRoutes feed r chunks ++ [r]).map Route.id)) := rfl

theorem runLoopSkip_cons (chunks : List (List Route)) (tIdx : String → List Nat) (r : Route)
    (rest : List Route) (feed : Feed) (proced : List String) :
    runLoopSkip chunks tIdx (r :: rest) feed proced =
      if r ∉ feed.routes then runLoopSkip chunks tIdx rest feed proced
      else if r.id ∈ proced then runLoopSkip chunks tIdx rest feed proced
      else if (getEquivalentRoutes feed r chunks).isEmpty then
        runLoopSkip chunks tIdx rest feed proced
      else
        (combineRoutes feed tIdx (getEquivalentRoutes feed r chunks ++ [r])).bind
          (fun feed' => runLoopSkip chunks tIdx rest feed'
            (proced ++ (getEquivalentRoutes feed r chunks ++ [r]).map Route.id)) := rfl

theorem combineRoutes_deleted_mem (feed : Feed) (tIdx : String → List Nat)
    (grp : List Route) (f' : Feed) (h : combineRoutes feed tIdx grp = some f') :
    ∀ x ∈ feed.routes, x ∉ f'.routes → x.id ∈ grp.map Route.id := by
  intro x hx hnx
  cases grp with
  | nil =>
    cases h
    exact absurd hx hnx
  | cons g0 rest =>
    have hr := combineMembers_routes tIdx (pickRef g0 (g0 :: rest)) (g0 :: rest) feed f' h
    rw [hr] at hnx
    have hall : ¬((g0 :: rest).filter (fun g => g != pickRef g0 (g0 :: rest))).all
        (fun g => x.id != g.id) = true := by
      intro hc
      exact hnx (List.mem_filter.mpr ⟨hx, hc⟩)
    rw [List.all_eq_true] at hall
    push_neg at hall
    rcases hall with ⟨g, hgf, hgne⟩
    have hgid : x.id = g.id := by simpa using hgne
    exact hgid ▸ List.mem_map_of_mem Route.id (List.mem_of_mem_filter hgf)

theorem runLoopSkip_eq_runLoop (chunks : List (List Route)) (tIdx : String → List Nat) :
    ∀ (S : List Route) (feed : Feed) (proced : List String),
      (∀ x ∈ S, x ∉ feed.routes → x.id ∈ proced) →
      runLoopSkip chunks tIdx S feed proced = runLoop chunks tIdx S feed proced := by
  intro S
  induction S with
  | nil => intro feed proced _; rfl
  | cons r rest ih =>
    intro feed proced hinv
    rw [runLoop_cons, runLoopSkip_cons]
    by_cases hr : r ∈ feed.routes
    · rw [if_neg (fun hc => hc hr)]
      by_cases hp : r.id ∈ proced
      · rw [if_pos hp, if_pos hp]
        exact ih feed proced (fun x hx => hinv x (List.mem_cons_of_mem r hx))
      · rw [if_neg hp, if_neg hp]
        by_cases he : (getEquivalentRoutes feed r chunks).isEmpty = true
        · rw [if_pos he, if_pos he]
          exact ih feed proced (fun x hx => hinv x (List.mem_cons_of_mem r hx))
        · rw [if_neg he, if_neg he]
          cases hcomb : combineRoutes feed tIdx (getEquivalentRoutes feed r chunks ++ [r]) with
          | none => rfl
          | some feed' =>
            show runLoopSkip chunks tIdx rest feed' _ = runLoop chunks tIdx rest feed' _
            apply ih
            intro x hx hnx
            by_cases hxf : x ∈ feed.routes
            · have := combineRoutes_deleted_mem feed tIdx _ feed' hcomb x hxf hnx
              exact List.mem_append_right proced this
            · exact List.mem_append_left _ (hinv x (List.mem_cons_of_mem r hx) hxf)
    · have hrid : r.id ∈ proced := hinv r (List.mem_cons_self r rest) hr
      rw [if_pos hr, if_pos hrid]
      exact ih feed proced (fun x hx => hinv x (List.mem_cons_of_mem r hx))

end RD

/-- C9 (amended): route deletions do happen inside the active iteration over
feed.Routes — every deletion Run performs is done by combineRoutes called from
the loop body, and on feedC2 that loop deletes one of the two routes — but
every route so deleted is already marked processed at that point, so an
iteration that skips deleted entries (as Go's map iteration may) produces
exactly the same result as iterating the entry snapshot. -/
theorem c9_deletions_inside_iteration_are_harmless :
    (∀ (numchunks : Nat) (feed : RD.Feed), RD.runSkip numchunks feed = RD.run numchunks feed) ∧
    RD.feedC2.routes.length = 2 ∧
    (RD.run 1 RD.feedC2).map (fun f => f.routes.length) = some 1 := by
  refine ⟨?_, by decide, by decide⟩
  intro numchunks feed
  exact RD.runLoopSkip_eq_runLoop _ _ feed.routes feed [] (fun x _ hx' => absurd ‹x ∈ feed.routes› hx')

/-! ## Chunking and the equivalent-route search as a filter of the snapshot -/

namespace RD

theorem chunksOfAux_flatten : ∀ (fuel k : Nat) (l : List α), (chunksOfAux fuel k l).flatten = l := by
  intro fuel
  induction fuel with
  | zero => intro k l; cases l <;> simp [chunksOfAux]
  | succ f ih =>
    intro k l
    cases l with
    | nil => rfl
    | cons x xs =>
      rw [chunksOfAux, List.flatten_cons, ih]
      exact List.take_append_drop k (x :: xs)

theorem chunksOf_flatten (k : Nat) (l : List α) : (chunksOf k l).flatten = l :=
  chunksOfAux_flatten l.length k l

theorem flatten_map_filter (p : α → Bool) :
    ∀ L : List (List α), (L.map (fun c => c.filter p)).flatten = L.flatten.filter p := by
  intro L
  induction L with
  | nil => simp
  | cons c cs ih =>
    rw [List.map_cons, List.flatten_cons, List.flatten_cons, List.filter_append, ih]

theorem getEquivalentRoutes_eq_filter (feed : Feed) (route : Route) (k : Nat)
    (snap : List Route) :
    getEquivalentRoutes feed route (chunksOf k snap) =
      snap.filter (fun r => r != route && routeEquals r route && checkFareEquality feed route r) := by
  unfold getEquivalentRoutes
  rw [flatten_map_filter, chunksOf_flatten]

end RD

/-! ## The swap-with-last deletion loop -/

namespace RD

theorem set_getElem_self (l : List FareRule) (i : Nat) (h : i < l.length) :
    l.set i l[i] = l := by
  apply List.ext_getElem
  · simp [List.length_set]
  · intro j h1 h2
    by_cases hij : i = j
    · subst hij
      simp [List.getElem_set]
    · simp [List.getElem_set, hij]

theorem swapDeleteStep_some {l l1 : List FareRule} {j : Nat} (h : swapDeleteStep l j = some l1) :
    ∃ hj : j < l.length, ∃ hlt : l.length - 1 < l.length,
      l1 = (l.set j (l.get ⟨l.length - 1, hlt⟩)).take (l.length - 1) := by
  unfold swapDeleteStep at h
  rw [List.getLast?_eq_getElem?] at h
  cases hlast : l[l.length - 1]? with
  | none => rw [hlast] at h; cases h
  | some last =>
    rw [hlast] at h
    dsimp only at h
    by_cases hj : j < l.length
    · rw [if_pos hj] at h
      have hlt : l.length - 1 < l.length := by omega
      have hlast' : last = l.get ⟨l.length - 1, hlt⟩ := by
        rw [List.getElem?_eq_getElem hlt] at hlast
        cases hlast
        rfl
      cases h
      exact ⟨hj, hlt, by rw [hlast']⟩
    · rw [if_neg hj] at h
      cases h

theorem swapDeleteStep_length {l l1 : List FareRule} {j : Nat}
    (h : swapDeleteStep l j = some l1) : j < l.length ∧ l1.length = l.length - 1 := by
  obtain ⟨hj, hlt, rfl⟩ := swapDeleteStep_some h
  refine ⟨hj, ?_⟩
  rw [List.length_take, List.length_set]
  omega

theorem swapDelete_oob : ∀ (js : List Nat) (l : List FareRule),
    (∃ j ∈ js, l.length ≤ j) → swapDelete l js = none := by
  intro js
  induction js with
  | nil => rintro l ⟨j, hj, _⟩; cases hj
  | cons j0 rest ih =>
    rintro l ⟨j, hj, hlen⟩
    unfold swapDelete at *
    rw [List.foldlM_cons]
    cases hstep : swapDeleteStep l j0 with
    | none => rfl
    | some l1 =>
      have hl := swapDeleteStep_length hstep
      have hj0 : j ≠ j0 := by
        intro he
        subst he
        omega
      have hjrest : j ∈ rest := by
        rcases List.mem_cons.mp hj with he | hm
        · exact absurd he hj0
        · exact hm
      show List.foldlM swapDeleteStep l1 rest = none
      exact ih l1 ⟨j, hjrest, by omega⟩

theorem swap_take_decomp (l : List FareRule) (j : Nat) (v : FareRule)
    (hjlt : j < l.length - 1) :
    (l.set j v).take (l.length - 1) = l.take j ++ v :: (l.drop (j + 1)).dropLast := by
  apply List.ext_getElem
  · simp only [List.length_take, List.length_set, List.length_append, List.length_cons,
      List.length_dropLast, List.length_drop]
    omega
  · intro i h1 h2
    rw [List.getElem_take, List.getElem_set, List.getElem_append]
    have hlt : (l.take j).length = j := by
      rw [List.length_take]
      have : j ≤ l.length := by omega
      omega
    by_cases hij : i < j
    · rw [if_neg (by omega), dif_pos (by omega : i < (l.take j).length)]
      exact (List.getElem_take _).symm
    · rw [dif_neg (by omega : ¬i < (l.take j).length)]
      rw [List.getElem_cons]
      by_cases hje : j = i
      · subst hje
        rw [if_pos rfl, dif_pos (by omega)]
      · rw [if_neg hje, dif_neg (by omega)]
        rw [List.getElem_dropLast, List.getElem_drop]
        exact getElem_congr (by omega)

theorem swapDeleteStep_perm {l l1 : List FareRule} {j : Nat} (hj : j < l.length)
    (h : swapDeleteStep l j = some l1) : (l.get ⟨j, hj⟩ :: l1).Perm l := by
  obtain ⟨hj', hlt, rfl⟩ := swapDeleteStep_some h
  have hne : l ≠ [] := by
    intro hnil
    subst hnil
    simp at hj
  by_cases hcase : j = l.length - 1
  · subst hcase
    have hset : l.set (l.length - 1) (l.get ⟨l.length - 1, hlt⟩) = l :=
      set_getElem_self l _ hlt
    rw [hset, ← List.dropLast_eq_take]
    have hself : l.get ⟨l.length - 1, hlt⟩ = l.getLast hne := by
      rw [List.getLast_eq_getElem]
      rfl
    rw [hself]
    have heq : l.dropLast ++ [l.getLast hne] = l := List.dropLast_append_getLast hne
    have hp : (l.dropLast ++ [l.getLast hne]).Perm l := by rw [heq]
    exact (List.perm_append_singleton _ _).symm.trans hp
  · have hjlt : j < l.length - 1 := by omega
    rw [swap_take_decomp l j _ hjlt]
    have hBlen : (l.drop (j + 1)).length = l.length - (j + 1) := List.length_drop _ _
    have hBne : l.drop (j + 1) ≠ [] := by
      intro hnil
      have := congrArg List.length hnil
      rw [hBlen] at this
      simp at this
      omega
    have hlastB : l.get ⟨l.length - 1, hlt⟩ = (l.drop (j + 1)).getLast hBne := by
      have hidx : l.length - 1 = j + 1 + ((l.drop (j + 1)).length - 1) := by
        rw [hBlen]
        omega
      rw [List.getLast_eq_getElem, List.getElem_drop, List.get_eq_getElem]
      exact getElem_congr hidx
    have hdecomp : l = l.take j ++ l.get ⟨j, hj⟩ :: l.drop (j + 1) := by
      conv_lhs => rw [← List.take_append_drop j l]
      congr 1
      exact List.drop_eq_getElem_cons hj
    refine List.perm_middle.symm.trans ?_
    conv_rhs => rw [hdecomp]
    apply List.Perm.append_left
    apply List.Perm.cons
    rw [hlastB]
    have heq : (l.drop (j + 1)).dropLast ++ [(l.drop (j + 1)).getLast hBne] = l.drop (j + 1) :=
      List.dropLast_append_getLast hBne
    have hp : ((l.drop (j + 1)).dropLast ++ [(l.drop (j + 1)).getLast hBne]).Perm
        (l.drop (j + 1)) := by rw [heq]
    exact (List.perm_append_singleton _ _).symm.trans hp

end RD

namespace RD

theorem mem_idxsWhere (p : α → Bool) (l : List α) :
    ∀ m : Nat, m ∈ idxsWhere p l ↔ ∃ x, l[m]? = some x ∧ p x = true := by
  intro m
  unfold idxsWhere
  rw [List.mem_filter, List.mem_range]
  cases h : l[m]? with
  | none =>
    have hlen : l.length ≤ m := List.getElem?_eq_none_iff.mp h
    constructor
    · rintro ⟨hi, _⟩; omega
    · rintro ⟨x, hx, _⟩; cases hx
  | some x =>
    have hlen : m < l.length := by
      by_contra hge
      rw [List.getElem?_eq_none_iff.mpr (Nat.le_of_not_lt hge)] at h
      cases h
    constructor
    · rintro ⟨_, hp⟩
      exact ⟨x, rfl, by simpa using hp⟩
    · rintro ⟨x', hx', hp⟩
      cases hx'
      exact ⟨hlen, by simpa using hp⟩

theorem idxsWhere_pairwise (p : α → Bool) (l : List α) :
    (idxsWhere p l).Pairwise (· < ·) :=
  List.Pairwise.filter _ (List.pairwise_lt_range _)

theorem swapDelete_perm_filter (p : FareRule → Bool) :
    ∀ (js : List Nat) (l res : List FareRule),
      js.Pairwise (· < ·) →
      (∀ m : Nat, m ∈ js ↔ ∃ x, l[m]? = some x ∧ p x = true) →
      swapDelete l js = some res →
      res.Perm (l.filter (fun x => !p x)) := by
  intro js
  induction js with
  | nil =>
    intro l res _ hinv h
    have hres : res = l := by
      unfold swapDelete at h
      simp only [List.foldlM_nil] at h
      cases h
      rfl
    subst hres
    have hall : ∀ x ∈ res, (!p x) = true := by
      intro x hx
      rcases List.mem_iff_getElem?.mp hx with ⟨n, hn⟩
      cases hpx : p x
      · simp
      · exfalso
        have hmem : n ∈ ([] : List Nat) := (hinv n).mpr ⟨x, hn, hpx⟩
        exact absurd hmem (List.not_mem_nil _)
    rw [List.filter_eq_self.mpr hall]
  | cons j rest ih =>
    intro l res hpw hinv h
    unfold swapDelete at h
    rw [List.foldlM_cons] at h
    rcases Option.bind_eq_some.mp h with ⟨l1, hstep, hrest⟩
    obtain ⟨hj, hlt, hl1⟩ := swapDeleteStep_some hstep
    subst hl1
    have hlen1 : ((l.set j (l.get ⟨l.length - 1, hlt⟩)).take (l.length - 1)).length =
        l.length - 1 := by
      rw [List.length_take, List.length_set]
      omega
    have hxj : l[j]? = some (l.get ⟨j, hj⟩) := List.getElem?_eq_getElem hj
    have hpj : p (l.get ⟨j, hj⟩) = true := by
      rcases (hinv j).mp (List.mem_cons_self j rest) with ⟨x, hx, hp⟩
      rw [hxj] at hx
      cases hx
      exact hp
    have hxlast : l[l.length - 1]? = some (l.get ⟨l.length - 1, hlt⟩) :=
      List.getElem?_eq_getElem hlt
    have hgt : ∀ m ∈ rest, j < m := (List.pairwise_cons.mp hpw).1
    have hpw' : rest.Pairwise (· < ·) := (List.pairwise_cons.mp hpw).2
    have hbound : ∀ m ∈ rest, m < l.length - 1 := by
      intro m hm
      by_contra hge
      have hnone : swapDelete ((l.set j (l.get ⟨l.length - 1, hlt⟩)).take (l.length - 1))
          rest = none := by
        refine swapDelete_oob rest _ ⟨m, hm, ?_⟩
        rw [hlen1]
        omega
      exact Option.noConfusion (hnone.symm.trans hrest)
    have hinv1 : ∀ m : Nat, m ∈ rest ↔
        ∃ x, ((l.set j (l.get ⟨l.length - 1, hlt⟩)).take (l.length - 1))[m]? = some x ∧
          p x = true := by
      intro m
      constructor
      · intro hm
        have hmlen : m < l.length - 1 := hbound m hm
        have hmj : j < m := hgt m hm
        rcases (hinv m).mp (List.mem_cons_of_mem j hm) with ⟨x, hx, hp⟩
        refine ⟨x, ?_, hp⟩
        rw [List.getElem?_take, if_pos hmlen, List.getElem?_set, if_neg (by omega)]
        exact hx
      · rintro ⟨x, hx, hp⟩
        have hmlen : m < l.length - 1 := by
          by_contra hge
          rw [List.getElem?_take, if_neg hge] at hx
          cases hx
        rw [List.getElem?_take, if_pos hmlen, List.getElem?_set] at hx
        by_cases hmj : j = m
        · rw [if_pos hmj, if_pos hj] at hx
          cases hx
          have hmem : l.length - 1 ∈ j :: rest := (hinv _).mpr ⟨_, hxlast, hp⟩
          rcases List.mem_cons.mp hmem with he | hmem'
          · exfalso
            omega
          · exfalso
            have := hbound _ hmem'
            omega
        · rw [if_neg hmj] at hx
          have hmem : m ∈ j :: rest := (hinv m).mpr ⟨x, hx, hp⟩
          rcases List.mem_cons.mp hmem with he | hm'
          · exact absurd he (fun hc => hmj hc.symm)
          · exact hm'
    have hres := ih _ res hpw' hinv1 hrest
    have hperm := swapDeleteStep_perm hj hstep
    have hhead : ((l.get ⟨j, hj⟩ ::
        (l.set j (l.get ⟨l.length - 1, hlt⟩)).take (l.length - 1)).filter (fun x => !p x)) =
        ((l.set j (l.get ⟨l.length - 1, hlt⟩)).take (l.length - 1)).filter (fun x => !p x) := by
      rw [List.filter_cons]
      have hneg : (!p (l.get ⟨j, hj⟩)) = false := by rw [hpj]; rfl
      rw [hneg]
      simp
    exact hres.trans (hhead ▸ hperm.filter (fun x => !p x))

theorem swapDelete_toDel_perm (p : FareRule → Bool) (l res : List FareRule)
    (h : swapDelete l (idxsWhere p l) = some res) :
    res.Perm (l.filter (fun x => !p x)) :=
  swapDelete_perm_filter p (idxsWhere p l) l res (idxsWhere_pairwise p l) (mem_idxsWhere p l) h

end RD

/-! ## The fare pass preserves the rule-key multisets of other routes -/

namespace RD

theorem routeKeys_perm (rid : String) {l1 l2 : List FareRule} (h : l1.Perm l2) :
    routeKeys rid l1 = routeKeys rid l2 := by
  unfold routeKeys ruleKeys
  exact Multiset.coe_eq_coe.mpr ((h.filter _).map _)

theorem routeKeys_filter_ne (x rid : String) (hx : x ≠ rid) (l : List FareRule) :
    routeKeys x (l.filter (fun fr => !(fr.route == rid))) = routeKeys x l := by
  unfold routeKeys
  congr 1
  rw [List.filter_filter]
  apply List.filter_congr
  intro fr _
  by_cases hr : fr.route = x
  · have h1 : (fr.route == x) = true := by simpa using hr
    have h2 : (fr.route == rid) = false := by
      simp [hr]
      exact hx
    rw [h1, h2]
    rfl
  · have h1 : (fr.route == x) = false := by simpa using hr
    rw [h1]
    simp

theorem msKeys_all_rid {rid : String} {fa : FareAttribute}
    (h : fa.rules.filter (fun fr => !(fr.route == rid)) = []) :
    ∀ x : String, x ≠ rid → msKeys x fa = 0 := by
  intro x hx
  apply msKeys_zero_of_no_rule
  intro fr hfr he
  have hall := List.filter_eq_nil_iff.mp h fr hfr
  simp only [Bool.not_eq_true'] at hall
  rw [he] at hall
  have : (x == rid) = true := by simpa using hall
  exact hx (by simpa using this)

theorem processFareAttrs_cons (rid : String) (fa : FareAttribute) (rest : List FareAttribute) :
    processFareAttrs rid (fa :: rest) =
      (swapDelete fa.rules (idxsWhere (fun fr => fr.route == rid) fa.rules)).bind
        (fun rules' => (processFareAttrs rid rest).bind
          (fun rest' =>
            if rules'.isEmpty && !fa.rules.isEmpty then some rest'
            else some ({ fa with rules := rules' } :: rest'))) := rfl

theorem processFareAttrs_ms (rid x y : String) (hx : x ≠ rid) (hy : y ≠ rid) :
    ∀ (attrs attrs' : List FareAttribute), processFareAttrs rid attrs = some attrs' →
      ((∀ fa ∈ attrs', msKeys x fa = msKeys y fa) ↔
        (∀ fa ∈ attrs, msKeys x fa = msKeys y fa)) := by
  intro attrs
  induction attrs with
  | nil =>
    intro attrs' h
    unfold processFareAttrs at h
    cases h
    constructor <;> (intro _ fa hfa; cases hfa)
  | cons fa rest ih =>
    intro attrs' h
    rw [processFareAttrs_cons] at h
    rcases Option.bind_eq_some.mp h with ⟨rules', hrules, h2⟩
    rcases Option.bind_eq_some.mp h2 with ⟨rest', hrest, h3⟩
    have hperm : rules'.Perm (fa.rules.filter (fun fr => !(fr.route == rid))) :=
      swapDelete_toDel_perm _ _ _ hrules
    have hih := ih rest' hrest
    by_cases hcond : (rules'.isEmpty && !fa.rules.isEmpty) = true
    · rw [if_pos hcond] at h3
      cases h3
      -- the attribute is dropped: all its rules referenced rid
      have hempty : rules' = [] := by
        have hpair : rules'.isEmpty = true ∧ (!fa.rules.isEmpty) = true := by
          simpa using hcond
        exact List.isEmpty_iff.mp hpair.1
      have hfe : fa.rules.filter (fun fr => !(fr.route == rid)) = [] := by
        have := hperm
        rw [hempty] at this
        exact (List.Perm.nil_eq this).symm
      constructor
      · intro hall fa' hfa'
        rcases List.mem_cons.mp hfa' with rfl | hm
        · rw [msKeys_all_rid hfe x hx, msKeys_all_rid hfe y hy]
        · exact (hih.mp hall) fa' hm
      · intro hall fa' hfa'
        exact hih.mpr (fun g hg => hall g (List.mem_cons_of_mem fa hg)) fa' hfa'
    · rw [if_neg hcond] at h3
      cases h3
      have hkeep : ∀ z : String, z ≠ rid →
          msKeys z { fa with rules := rules' } = msKeys z fa := by
        intro z hz
        unfold msKeys
        dsimp only
        rw [routeKeys_perm z hperm, routeKeys_filter_ne z rid hz]
      constructor
      · intro hall fa' hfa'
        rcases List.mem_cons.mp hfa' with rfl | hm
        · have := hall _ (List.mem_cons_self _ _)
          rwa [hkeep x hx, hkeep y hy] at this
        · exact hih.mp (fun g hg => hall g (List.mem_cons_of_mem _ hg)) fa' hm
      · intro hall fa' hfa'
        rcases List.mem_cons.mp hfa' with rfl | hm
        · rw [hkeep x hx, hkeep y hy]
          exact hall fa (List.mem_cons_self fa rest)
        · exact hih.mpr (fun g hg => hall g (List.mem_cons_of_mem fa hg)) fa' hm

end RD

/-! ## Route equivalence and its preservation by combineRoutes -/

namespace RD

theorem routeEquals_iff (a b : Route) :
    routeEquals a b = true ↔ a.agency = b.agency ∧ a.shortName = b.shortName ∧
      a.longName = b.longName ∧ a.desc = b.desc ∧ a.rtype = b.rtype ∧ a.url = b.url ∧
      a.color = b.color ∧ a.textColor = b.textColor := by
  unfold routeEquals
  simp [Bool.and_eq_true, and_assoc]

theorem routeEquals_refl (a : Route) : routeEquals a a = true := by
  rw [routeEquals_iff]
  exact ⟨rfl, rfl, rfl, rfl, rfl, rfl, rfl, rfl⟩

theorem routeEquals_symm {a b : Route} (h : routeEquals a b = true) :
    routeEquals b a = true := by
  rw [routeEquals_iff] at h ⊢
  obtain ⟨h1, h2, h3, h4, h5, h6, h7, h8⟩ := h
  exact ⟨h1.symm, h2.symm, h3.symm, h4.symm, h5.symm, h6.symm, h7.symm, h8.symm⟩

theorem routeEquals_trans {a b c : Route} (h1 : routeEquals a b = true)
    (h2 : routeEquals b c = true) : routeEquals a c = true := by
  rw [routeEquals_iff] at h1 h2 ⊢
  obtain ⟨a1, a2, a3, a4, a5, a6, a7, a8⟩ := h1
  obtain ⟨b1, b2, b3, b4, b5, b6, b7, b8⟩ := h2
  exact ⟨a1.trans b1, a2.trans b2, a3.trans b3, a4.trans b4, a5.trans b5, a6.trans b6,
    a7.trans b7, a8.trans b8⟩

theorem equivR_refl (feed : Feed) (a : Route) : equivR feed a a :=
  ⟨routeEquals_refl a, fun _ _ => rfl⟩

theorem equivR_symm {feed : Feed} {a b : Route} (h : equivR feed a b) : equivR feed b a :=
  ⟨routeEquals_symm h.1, fun fa hfa => (h.2 fa hfa).symm⟩

theorem equivR_trans {feed : Feed} {a b c : Route} (h1 : equivR feed a b)
    (h2 : equivR feed b c) : equivR feed a c :=
  ⟨routeEquals_trans h1.1 h2.1, fun fa hfa => (h1.2 fa hfa).trans (h2.2 fa hfa)⟩

theorem pred_iff_equivR (feed : Feed) (x r' : Route) (hid : x.id ≠ r'.id) :
    (r' != x && routeEquals r' x && checkFareEquality feed x r') = true ↔
      (r' ≠ x ∧ equivR feed x r') := by
  rw [Bool.and_eq_true, Bool.and_eq_true, bne_iff_ne]
  rw [checkFareEquality_iff feed x r' hid]
  unfold equivR
  constructor
  · rintro ⟨⟨hne, heq⟩, hms⟩
    exact ⟨hne, routeEquals_symm heq, hms⟩
  · rintro ⟨hne, heq, hms⟩
    exact ⟨⟨hne, routeEquals_symm heq⟩, hms⟩

theorem combineMembers_msKeys (tIdx : String → List Nat) (ref : Route) :
    ∀ (mem : List Route) (feed f' : Feed),
      List.foldlM (combineMember tIdx ref) feed mem = some f' →
      ∀ (x y : String), (∀ m ∈ mem, m ≠ ref → x ≠ m.id ∧ y ≠ m.id) →
        ((∀ fa ∈ f'.fareAttributes, msKeys x fa = msKeys y fa) ↔
          (∀ fa ∈ feed.fareAttributes, msKeys x fa = msKeys y fa)) := by
  intro mem
  induction mem with
  | nil =>
    intro feed f' h x y _
    simp only [List.foldlM_nil] at h
    cases h
    exact Iff.rfl
  | cons m rest ih =>
    intro feed f' h x y hxy
    rw [List.foldlM_cons] at h
    rcases Option.bind_eq_some.mp h with ⟨feed1, h1, h2⟩
    by_cases hm : m = ref
    · subst hm
      rw [combineMember, if_pos rfl] at h1
      cases h1
      exact ih feed f' h2 x y (fun g hg => hxy g (List.mem_cons_of_mem m hg))
    · rw [combineMember_eq_of_ne tIdx ref feed m hm] at h1
      rcases Option.map_eq_some'.mp h1 with ⟨attrs', hattrs, hfeed1⟩
      subst hfeed1
      have hids := hxy m (List.mem_cons_self m rest) hm
      have hih := ih _ f' h2 x y (fun g hg => hxy g (List.mem_cons_of_mem m hg))
      rw [hih]
      exact processFareAttrs_ms m.id x y hids.1 hids.2 feed.fareAttributes attrs' hattrs

theorem combineRoutes_equivR (feed : Feed) (tIdx : String → List Nat) (g0 : Route)
    (rest : List Route) (f' : Feed)
    (h : combineRoutes feed tIdx (g0 :: rest) = some f') (a b : Route)
    (ha : ∀ m ∈ g0 :: rest, m ≠ pickRef g0 (g0 :: rest) → a.id ≠ m.id ∧ b.id ≠ m.id) :
    (equivR f' a b ↔ equivR feed a b) := by
  have hm := combineMembers_msKeys tIdx (pickRef g0 (g0 :: rest)) (g0 :: rest) feed f' h
    a.id b.id ha
  unfold equivR
  rw [hm]

end RD

/-! ## After Run no two remaining routes are equivalent, hence a second Run is a no-op -/

namespace RD

theorem ids_ne {snap : List Route} (hsnodup : (snap.map Route.id).Nodup) {a b : Route}
    (ha : a ∈ snap) (hb : b ∈ snap) (hne : a ≠ b) : a.id ≠ b.id :=
  fun he => hne (List.inj_on_of_nodup_map hsnodup ha hb he)

theorem mem_eq_equivR {feed : Feed} {x r' : Route} {chunks : List (List Route)}
    {snap : List Route}
    (hG : getEquivalentRoutes feed x chunks =
      snap.filter (fun r => r != x && routeEquals r x && checkFareEquality feed x r))
    (hsnodup : (snap.map Route.id).Nodup) (hx : x ∈ snap)
    (hr : r' ∈ getEquivalentRoutes feed x chunks) :
    r' ∈ snap ∧ r' ≠ x ∧ equivR feed x r' := by
  rw [hG, List.mem_filter] at hr
  obtain ⟨hmem, hpred⟩ := hr
  have hne : r' ≠ x := by
    have := hpred
    rw [Bool.and_eq_true, Bool.and_eq_true, bne_iff_ne] at this
    exact this.1.1
  have hid : x.id ≠ r'.id := ids_ne hsnodup hx hmem (fun hc => hne hc.symm)
  have := (pred_iff_equivR feed x r' hid).mp hpred
  exact ⟨hmem, this.1, this.2⟩

theorem equivR_mem_eq {feed : Feed} {x b : Route} {chunks : List (List Route)}
    {snap : List Route}
    (hG : getEquivalentRoutes feed x chunks =
      snap.filter (fun r => r != x && routeEquals r x && checkFareEquality feed x r))
    (hsnodup : (snap.map Route.id).Nodup) (hx : x ∈ snap) (hb : b ∈ snap)
    (hne : b ≠ x) (he : equivR feed x b) : b ∈ getEquivalentRoutes feed x chunks := by
  rw [hG, List.mem_filter]
  refine ⟨hb, ?_⟩
  have hid : x.id ≠ b.id := ids_ne hsnodup hx hb (fun hc => hne hc.symm)
  exact (pred_iff_equivR feed x b hid).mpr ⟨hne, he⟩

theorem runLoop_post (chunks : List (List Route)) (tIdx : String → List Nat)
    (snap : List Route)
    (hG : ∀ (feed : Feed) (r : Route), getEquivalentRoutes feed r chunks =
      snap.filter (fun r' => r' != r && routeEquals r' r && checkFareEquality feed r r'))
    (hsnodup : (snap.map Route.id).Nodup) :
    ∀ (S : List Route) (feed : Feed) (proced : List String) (f' : Feed),
      (∀ x ∈ S, x ∈ snap) →
      feed.routes.Sublist snap →
      (∀ a b : Route, a ∈ feed.routes → b ∈ feed.routes → a ≠ b → equivR feed a b →
        a ∈ S ∧ a.id ∉ proced ∧ b ∈ S ∧ b.id ∉ proced) →
      runLoop chunks tIdx S feed proced = some f' →
      f'.routes.Sublist snap ∧
      (∀ a b : Route, a ∈ f'.routes → b ∈ f'.routes → a ≠ b → ¬equivR f' a b) := by
  intro S
  induction S with
  | nil =>
    intro feed proced f' _ hsub hpair h
    cases h
    exact ⟨hsub, fun a b ha hb hne he => absurd (hpair a b ha hb hne he).1 (List.not_mem_nil a)⟩
  | cons x S' ih =>
    intro feed proced f' hS hsub hpair h
    rw [runLoop_cons] at h
    by_cases hp : x.id ∈ proced
    · rw [if_pos hp] at h
      refine ih feed proced f' (fun z hz => hS z (List.mem_cons_of_mem x hz)) hsub ?_ h
      intro a b ha hb hne he
      obtain ⟨haS, hap, hbS, hbp⟩ := hpair a b ha hb hne he
      have hax : a ≠ x := fun hc => hap (hc ▸ hp)
      have hbx : b ≠ x := fun hc => hbp (hc ▸ hp)
      exact ⟨(List.mem_cons.mp haS).resolve_left hax, hap,
        (List.mem_cons.mp hbS).resolve_left hbx, hbp⟩
    · rw [if_neg hp] at h
      by_cases hec : (getEquivalentRoutes feed x chunks).isEmpty = true
      · rw [if_pos hec] at h
        refine ih feed proced f' (fun z hz => hS z (List.mem_cons_of_mem x hz)) hsub ?_ h
        intro a b ha hb hne he
        obtain ⟨haS, hap, hbS, hbp⟩ := hpair a b ha hb hne he
        have hax : a ≠ x := by
          rintro rfl
          have hbmem := equivR_mem_eq (hG feed a) hsnodup (hS a (List.mem_cons_self a S'))
            (hsub.subset hb) (fun hc => hne hc.symm) he
          rw [List.isEmpty_iff] at hec
          rw [hec] at hbmem
          exact absurd hbmem (List.not_mem_nil b)
        have hbx : b ≠ x := by
          rintro rfl
          have hamem := equivR_mem_eq (hG feed b) hsnodup (hS b (List.mem_cons_self b S'))
            (hsub.subset ha) (fun hc => hne hc) (equivR_symm he)
          rw [List.isEmpty_iff] at hec
          rw [hec] at hamem
          exact absurd hamem (List.not_mem_nil a)
        exact ⟨(List.mem_cons.mp haS).resolve_left hax, hap,
          (List.mem_cons.mp hbS).resolve_left hbx, hbp⟩
      · rw [if_neg hec] at h
        cases hcomb : combineRoutes feed tIdx (getEquivalentRoutes feed x chunks ++ [x]) with
        | none =>
          rw [hcomb] at h
          exact Option.noConfusion h
        | some feed1 =>
          rw [hcomb] at h
          have h' : runLoop chunks tIdx S' feed1
              (proced ++ (getEquivalentRoutes feed x chunks ++ [x]).map Route.id) = some f' := h
          obtain ⟨g0, grest, hgrp⟩ :
              ∃ g0 grest, getEquivalentRoutes feed x chunks ++ [x] = g0 :: grest := by
            cases hcase : getEquivalentRoutes feed x chunks ++ [x] with
            | nil =>
              exfalso
              have := congrArg List.length hcase
              simp at this
            | cons a l => exact ⟨a, l, rfl⟩
          rw [hgrp] at hcomb
          have hxgrp : x ∈ g0 :: grest := hgrp ▸ List.mem_append_right _ (by simp)
          have hgrpsnap : ∀ g ∈ g0 :: grest, g ∈ snap := by
            intro g hg
            rcases List.mem_append.mp (hgrp ▸ hg) with hgeq | hgx
            · exact (mem_eq_equivR (hG feed x) hsnodup (hS x (List.mem_cons_self x S')) hgeq).1
            · rw [List.mem_singleton.mp hgx]
              exact hS x (List.mem_cons_self x S')
          have hgrpequiv : ∀ g ∈ g0 :: grest, equivR feed x g := by
            intro g hg
            rcases List.mem_append.mp (hgrp ▸ hg) with hgeq | hgx
            · exact (mem_eq_equivR (hG feed x) hsnodup (hS x (List.mem_cons_self x S')) hgeq).2.2
            · rw [List.mem_singleton.mp hgx]
              exact equivR_refl feed x
          have hfold : List.foldlM (combineMember tIdx (pickRef g0 (g0 :: grest))) feed
              (g0 :: grest) = some feed1 := hcomb
          have hroutes1 := combineMembers_routes tIdx (pickRef g0 (g0 :: grest))
            (g0 :: grest) feed feed1 hfold
          have hmem1 : ∀ z ∈ feed1.routes, z ∈ feed.routes := by
            intro z hz
            rw [hroutes1] at hz
            exact List.mem_of_mem_filter hz
          have hnotsup : ∀ z ∈ feed1.routes, ∀ g ∈ g0 :: grest,
              g ≠ pickRef g0 (g0 :: grest) → z.id ≠ g.id := by
            intro z hz g hg hgne
            rw [hroutes1, List.mem_filter] at hz
            have hall := hz.2
            rw [List.all_eq_true] at hall
            have hgf : g ∈ (g0 :: grest).filter (fun g => g != pickRef g0 (g0 :: grest)) :=
              List.mem_filter.mpr ⟨hg, by simpa using hgne⟩
            simpa using hall g hgf
          have hsub1 : feed1.routes.Sublist snap := by
            rw [hroutes1]
            exact (List.filter_sublist _).trans hsub
          refine ih feed1 _ f' (fun z hz => hS z (List.mem_cons_of_mem x hz)) hsub1 ?_ h'
          intro a b ha1 hb1 hne heq1
          have ha : a ∈ feed.routes := hmem1 a ha1
          have hb : b ∈ feed.routes := hmem1 b hb1
          have heq : equivR feed a b :=
            (combineRoutes_equivR feed tIdx g0 grest feed1 hcomb a b
              (fun m hm hmne => ⟨hnotsup a ha1 m hm hmne, hnotsup b hb1 m hm hmne⟩)).mp heq1
          obtain ⟨haS, hap, hbS, hbp⟩ := hpair a b ha hb hne heq
          have hagrp : a ∉ g0 :: grest := by
            intro hag
            by_cases har : a = pickRef g0 (g0 :: grest)
            · have hxa : equivR feed x a := hgrpequiv a hag
              have hxb : equivR feed x b := equivR_trans hxa heq
              by_cases hbx : b = x
              · subst hbx
                have hxref : b ≠ pickRef g0 (g0 :: grest) := fun hc => hne (har.trans hc.symm)
                exact hnotsup b hb1 b hxgrp hxref rfl
              · have hbeq : b ∈ getEquivalentRoutes feed x chunks :=
                  equivR_mem_eq (hG feed x) hsnodup (hS x (List.mem_cons_self x S'))
                    (hsub.subset hb) hbx hxb
                have hbgrp : b ∈ g0 :: grest := hgrp ▸ List.mem_append_left _ hbeq
                have hbref : b ≠ pickRef g0 (g0 :: grest) := fun hc => hne (har.trans hc.symm)
                exact hnotsup b hb1 b hbgrp hbref rfl
            · exact hnotsup a ha1 a hag har rfl
          have hbgrp : b ∉ g0 :: grest := by
            intro hbg
            by_cases hbr : b = pickRef g0 (g0 :: grest)
            · have hxb : equivR feed x b := hgrpequiv b hbg
              have hxa : equivR feed x a := equivR_trans hxb (equivR_symm heq)
              have hax : a ≠ x := fun hc => hagrp (hc ▸ hxgrp)
              have haeq : a ∈ getEquivalentRoutes feed x chunks :=
                equivR_mem_eq (hG feed x) hsnodup (hS x (List.mem_cons_self x S'))
                  (hsub.subset ha) hax hxa
              exact hagrp (hgrp ▸ List.mem_append_left _ haeq)
            · exact hnotsup b hb1 b hbg hbr rfl
          have hax : a ≠ x := fun hc => hagrp (hc ▸ hxgrp)
          have hbx : b ≠ x := fun hc => hbgrp (hc ▸ hxgrp)
          have haid : a.id ∉ (g0 :: grest).map Route.id := by
            intro hmem
            rcases List.mem_map.mp hmem with ⟨g, hg, hgid⟩
            have : a = g :=
              List.inj_on_of_nodup_map hsnodup (hsub.subset ha) (hgrpsnap g hg) hgid.symm
            exact hagrp (this ▸ hg)
          have hbid : b.id ∉ (g0 :: grest).map Route.id := by
            intro hmem
            rcases List.mem_map.mp hmem with ⟨g, hg, hgid⟩
            have : b = g :=
              List.inj_on_of_nodup_map hsnodup (hsub.subset hb) (hgrpsnap g hg) hgid.symm
            exact hbgrp (this ▸ hg)
          refine ⟨(List.mem_cons.mp haS).resolve_left hax, ?_,
            (List.mem_cons.mp hbS).resolve_left hbx, ?_⟩
          · rw [hgrp, List.mem_append]
            rintro (hc | hc)
            · exact hap hc
            · exact haid hc
          · rw [hgrp, List.mem_append]
            rintro (hc | hc)
            · exact hbp hc
            · exact hbid hc

theorem runLoop_noop (chunks : List (List Route)) (tIdx : String → List Nat) :
    ∀ (S : List Route) (feed : Feed) (proced : List String),
      (∀ x ∈ S, (getEquivalentRoutes feed x chunks).isEmpty = true) →
      runLoop chunks tIdx S feed proced = some feed := by
  intro S
  induction S with
  | nil => intro feed proced _; rfl
  | cons x S' ih =>
    intro feed proced hall
    rw [runLoop_cons]
    by_cases hp : x.id ∈ proced
    · rw [if_pos hp]
      exact ih feed proced (fun z hz => hall z (List.mem_cons_of_mem x hz))
    · rw [if_neg hp, if_pos (hall x (List.mem_cons_self x S'))]
      exact ih feed proced (fun z hz => hall z (List.mem_cons_of_mem x hz))

theorem run_eq_def (numchunks : Nat) (feed : Feed) :
    run numchunks feed =
      runLoop (chunksOf ((feed.routes.length + numchunks - 1) / numchunks) feed.routes)
        (tripIndicesFor feed.trips) feed.routes feed [] := rfl

end RD

/-- C4: running RouteDuplicateRemover again on a feed it has already processed
changes nothing (in particular it removes no further routes), and running
IDMinimizer again on its own output renames no entity: every collection and
every identifier is the same after the second run as after the first. -/
theorem c4_second_run_is_noop :
    (∀ (numchunks : Nat) (feed f' : RD.Feed), (feed.routes.map RD.Route.id).Nodup →
      RD.run numchunks feed = some f' → RD.run numchunks f' = some f') ∧
    (∀ (b : Nat) (feedI : IM.Feed), IM.run b (IM.run b feedI) = IM.run b feedI) := by
  constructor
  · intro nc feed f' hnodup hrun
    rw [RD.run_eq_def] at hrun
    have hG : ∀ (fd : RD.Feed) (r : RD.Route),
        RD.getEquivalentRoutes fd r
          (RD.chunksOf ((feed.routes.length + nc - 1) / nc) feed.routes) =
        feed.routes.filter
          (fun r' => r' != r && RD.routeEquals r' r && RD.checkFareEquality fd r r') :=
      fun fd r => RD.getEquivalentRoutes_eq_filter fd r _ _
    have hpost := RD.runLoop_post _ _ feed.routes hG hnodup feed.routes feed [] f'
      (fun z hz => hz) (List.Sublist.refl _)
      (fun a b ha hb _ _ => ⟨ha, by simp, hb, by simp⟩) hrun
    have hnodup' : (f'.routes.map RD.Route.id).Nodup :=
      List.Nodup.sublist (hpost.1.map RD.Route.id) hnodup
    rw [RD.run_eq_def]
    apply RD.runLoop_noop
    intro x hx
    rw [RD.getEquivalentRoutes_eq_filter, List.isEmpty_iff, List.filter_eq_nil_iff]
    intro r' hr' hpred
    have hne : r' ≠ x := by
      have := hpred
      rw [Bool.and_eq_true, Bool.and_eq_true, bne_iff_ne] at this
      exact this.1.1
    have hid : x.id ≠ r'.id := RD.ids_ne hnodup' hx hr' (fun hc => hne hc.symm)
    have := (RD.pred_iff_equivR f' x r' hid).mp hpred
    exact hpost.2 x r' hx hr' (fun hc => hne hc.symm) this.2
  · exact fun b feedI => IM.run_idempotent b feedI

/-- C4 witness: applied at the concrete feed with routes R1 and R22 that the
first Run merges: a second Run on the result changes nothing. -/
theorem c4_witness : RD.run 1 RD.feedC2run = some RD.feedC2run :=
  c4_second_run_is_noop.1 1 RD.feedC2 RD.feedC2run (by decide) (by decide)
